import Mathlib

/-!
Shallow embedding of the node material graph compiler: output-node
registration, the structural build preconditions, the block-graph walks
(dual-block reset, block attachment, gather), the per-mesh specialization
layer (defines handling, uniform and sampler merging) and the draw-time
binding order, together with the serialization round trip.

Blocks are identified by their unique numeric id. Mutation of material
state is modelled by explicit state passing; recursive graph walks of the
source are modelled with an explicit fuel argument, and the theorems
establish fuel-independence where the source walk terminates.
-/

namespace NodeMat

/-- Target affinity values of the NodeMaterialBlockTargets enum, used as a
bitmask by addOutputNode: Vertex = 1, Fragment = 2, VertexAndFragment = 3
(the or of the previous two), Neutral = 4. -/
def targetVertex : Nat := 1

/-- Fragment target affinity (bit 2). -/
def targetFragment : Nat := 2

/-- VertexAndFragment target affinity (both bits). -/
def targetVertexAndFragment : Nat := 3

/-- Neutral target affinity. -/
def targetNeutral : Nat := 4

/-! ## Output node registration (addOutputNode) -/

/-- State observed by addOutputNode: the two root-node lists and the
mutable target field of every block (`none` models a null target). -/
structure RootsState where
  vertexOutputNodes : List Nat
  fragmentOutputNodes : List Nat
  target : Nat → Option Nat

/-- Embedding of NodeMaterial.addVertexOutputNode: an early return when the
node is already a vertex root, otherwise the target is overwritten to
Vertex and the node is appended to the vertex root list. -/
def addVertexOutputNode (m : RootsState) (node : Nat) : RootsState :=
  if node ∈ m.vertexOutputNodes then m
  else
    { m with
      target := fun b => if b = node then some targetVertex else m.target b
      vertexOutputNodes := m.vertexOutputNodes ++ [node] }

/-- Embedding of NodeMaterial.addFragmentOutputNode: an early return when
the node is already a fragment root, otherwise the target is overwritten
to Fragment and the node is appended to the fragment root list. -/
def addFragmentOutputNode (m : RootsState) (node : Nat) : RootsState :=
  if node ∈ m.fragmentOutputNodes then m
  else
    { m with
      target := fun b => if b = node then some targetFragment else m.target b
      fragmentOutputNodes := m.fragmentOutputNodes ++ [node] }

/-- Embedding of NodeMaterial.addOutputNode: a null target throws; the
vertex branch runs first, and the fragment-affinity test then re-reads the
target field, which the vertex branch may already have rewritten. -/
def addOutputNode (m : RootsState) (node : Nat) : Except String RootsState :=
  match m.target node with
  | none =>
      .error "This node is not meant to be an output node. You may want to explicitly set its target value."
  | some t =>
      let m1 := if t.land targetVertex ≠ 0 then addVertexOutputNode m node else m
      let m2 :=
        match m1.target node with
        | none => m1
        | some t2 => if t2.land targetFragment ≠ 0 then addFragmentOutputNode m1 node else m1
      .ok m2

/-- Projection of the fragment root list out of an addOutputNode result. -/
def fragRootsOf (r : Except String RootsState) : List Nat :=
  match r with
  | .ok m => m.fragmentOutputNodes
  | .error _ => []

/-- Projection of the vertex root list out of an addOutputNode result. -/
def vertexRootsOf (r : Except String RootsState) : List Nat :=
  match r with
  | .ok m => m.vertexOutputNodes
  | .error _ => []

/-- Projection of one block target out of an addOutputNode result. -/
def targetOf (r : Except String RootsState) (node : Nat) : Option Nat :=
  match r with
  | .ok m => m.target node
  | .error _ => none

/-- Concrete state for claim C10: block 7 has target VertexAndFragment and
is already present in the vertex root list. -/
def rootsC10 : RootsState :=
  { vertexOutputNodes := [7]
    fragmentOutputNodes := []
    target := fun b => if b = 7 then some targetVertexAndFragment else none }

/-! ## Structural build preconditions (NodeMaterial.build, opening) -/

/-- Material modes of the NodeMaterialModes enum. -/
inductive NodeMaterialModes where
  | Material
  | PostProcess
  | Particle
  | ProceduralTexture
deriving DecidableEq

/-- Observable actions of the opening of NodeMaterial.build, recorded in
source order. -/
inductive BuildAction where
  | throwBuildError (msg : String)
  | allocCompilationStates
  | allocSharedData
deriving DecidableEq

/-- Message thrown when no vertex output node is defined. -/
def vertexRootErrorMsg : String := "You must define at least one vertexOutputNode"

/-- Message thrown when no fragment output node is defined. -/
def fragmentRootErrorMsg : String := "You must define at least one fragmentOutputNode"

/-- Embedding of the opening of NodeMaterial.build: the vertex root check
runs first (skipped only in Particle mode), then the fragment root check,
and only when both pass are the two compilation states and the shared
build data allocated. -/
def buildStartTrace (vertexOutputNodes fragmentOutputNodes : List Nat)
    (mode : NodeMaterialModes) : List BuildAction :=
  let allowEmptyVertexProgram : Bool := mode = NodeMaterialModes.Particle
  if vertexOutputNodes.length = 0 ∧ allowEmptyVertexProgram = false then
    [BuildAction.throwBuildError vertexRootErrorMsg]
  else if fragmentOutputNodes.length = 0 then
    [BuildAction.throwBuildError fragmentRootErrorMsg]
  else
    [BuildAction.allocCompilationStates, BuildAction.allocSharedData]

/-! ## Draw-time binding order (CoreNodeMaterial.bindForSubMesh) -/

/-- Shared build data lists consumed at draw time. -/
structure BindSharedData where
  inputBlocks : List Nat
  bindableBlocks : List Nat
  forcedBindableBlocks : List Nat

/-- Observable draw-time actions of bindForSubMesh. -/
inductive BindEvent where
  | transmitWorld (block : Nat)
  | bindBlock (block : Nat)
  | transmitValue (block : Nat)
  | afterBind
deriving DecidableEq

/-- Embedding of CoreNodeMaterial.bindForSubMesh as its sequence of
draw-time actions: without an effect nothing happens; otherwise
bindOnlyWorldMatrix transmits the world matrices to every input block,
then on a rebind the bindable blocks are bound, then the forced bindable
blocks, then the input block values are transmitted; without a rebind only
the forced bindable blocks are bound unless the material is frozen. -/
def bindForSubMesh (sd : BindSharedData) (hasEffect mustRebind isFrozen : Bool) :
    List BindEvent :=
  if hasEffect = false then []
  else
    (sd.inputBlocks.map BindEvent.transmitWorld)
      ++ (if mustRebind then
            sd.bindableBlocks.map BindEvent.bindBlock
              ++ sd.forcedBindableBlocks.map BindEvent.bindBlock
              ++ sd.inputBlocks.map BindEvent.transmitValue
          else if isFrozen = false then
            sd.forcedBindableBlocks.map BindEvent.bindBlock
          else [])
      ++ [BindEvent.afterBind]

/-- Restated from the spec sentence behind claim C1, for comparison with
the embedded code: on a rebind, first all input block values, then all
bindable block values, then all forced bindable block values. -/
def claimedRebindOrder (sd : BindSharedData) : List BindEvent :=
  sd.inputBlocks.map BindEvent.transmitValue
    ++ sd.bindableBlocks.map BindEvent.bindBlock
    ++ sd.forcedBindableBlocks.map BindEvent.bindBlock

/-- Selects the value-push events (block binds and input value
transmissions) out of a draw-time action sequence. -/
def isValuePush : BindEvent → Bool
  | BindEvent.bindBlock _ => true
  | BindEvent.transmitValue _ => true
  | _ => false

/-- Concrete shared data for claim C1: one input block, one bindable
block, one forced bindable block. -/
def bindSdC1 : BindSharedData :=
  { inputBlocks := [1], bindableBlocks := [2], forcedBindableBlocks := [3] }

/-! ## Defines set and the specialization layer -/

/-- Defines state of NodeMaterialDefines together with the dirty flags of
its MaterialDefines base. The MaterialDefines base class is not part of
the sources; its flag discipline is modelled from the spec: the Defines
Set keeps one dirty flag per category plus the master flag read by
isDirty; marking a category dirty raises that category flag and the
master flag; marking as processed clears them all; marking as unprocessed
raises the master flag alone (the retry state of the hot-swap path). -/
structure NDefines where
  NORMAL : Bool
  TANGENT : Bool
  VERTEXCOLOR : Bool
  uv1 : Bool
  uv2 : Bool
  uv3 : Bool
  uv4 : Bool
  uv5 : Bool
  uv6 : Bool
  PREPASS : Bool
  isDirtyFlag : Bool
  areAttributesDirty : Bool
  areMiscDirty : Bool
  areImageProcessingDirty : Bool
  areLightsDisposed : Bool
deriving DecidableEq

/-- Master dirty flag read by the processDefines cache check. -/
def NDefines.isDirty (d : NDefines) : Bool := d.isDirtyFlag

/-- Modelled from the spec: marking the attributes category dirty. -/
def markAsAttributesDirty (d : NDefines) : NDefines :=
  { d with areAttributesDirty := true, isDirtyFlag := true }

/-- Modelled from the spec: marking the misc category dirty. -/
def markAsMiscDirty (d : NDefines) : NDefines :=
  { d with areMiscDirty := true, isDirtyFlag := true }

/-- Modelled from the spec: marking the image processing category dirty. -/
def markAsImageProcessingDirty (d : NDefines) : NDefines :=
  { d with areImageProcessingDirty := true, isDirtyFlag := true }

/-- Modelled from the spec: marking the defines unprocessed raises the
master flag without touching any category flag. -/
def markAsUnprocessed (d : NDefines) : NDefines :=
  { d with isDirtyFlag := true }

/-- Modelled from the spec: marking the defines processed clears the
master flag and every category flag. -/
def markAsProcessed (d : NDefines) : NDefines :=
  { d with isDirtyFlag := false, areAttributesDirty := false, areMiscDirty := false,
           areImageProcessingDirty := false, areLightsDisposed := false }

/-- Mesh capabilities read by prepareDefinesForAttributes. -/
structure MeshCaps where
  hasNormal : Bool
  hasTangent : Bool
  useVertexColors : Bool
  hasColor : Bool
  uv1 : Bool
  uv2 : Bool
  uv3 : Bool
  uv4 : Bool
  uv5 : Bool
  uv6 : Bool
deriving DecidableEq

/-- Modelled from the spec: the prepass define preparation (the helper
PrepareDefinesForPrePass lives outside the sources) recomputes the
PREPASS define from the scene prepass configuration; when the recomputed
value differs from the stored one the defines are marked unprocessed and
the image processing category dirty, otherwise they are left unchanged. -/
def prepareDefinesForPrePass (scenePrePass : Bool) (d : NDefines) : NDefines :=
  if d.PREPASS = scenePrePass then d
  else markAsImageProcessingDirty (markAsUnprocessed { d with PREPASS := scenePrePass })

/-- Embedding of CoreNodeMaterial.prepareDefinesForAttributes: the normal,
tangent, vertex color and uv defines are recomputed from the mesh, the
prepass defines are recomputed, and the attributes category is marked
dirty exactly when one of the attribute-derived values changed. -/
def prepareDefinesForAttributes (mesh : MeshCaps) (scenePrePass : Bool)
    (d : NDefines) : NDefines :=
  let oldNormal := d.NORMAL
  let oldTangent := d.TANGENT
  let oldColor := d.VERTEXCOLOR
  let hasVertexColors := mesh.useVertexColors && mesh.hasColor
  let uvChanged :=
    (mesh.uv1 != d.uv1) || (mesh.uv2 != d.uv2) || (mesh.uv3 != d.uv3) ||
      (mesh.uv4 != d.uv4) || (mesh.uv5 != d.uv5) || (mesh.uv6 != d.uv6)
  let d1 := { d with NORMAL := mesh.hasNormal, TANGENT := mesh.hasTangent,
                     VERTEXCOLOR := hasVertexColors,
                     uv1 := mesh.uv1, uv2 := mesh.uv2, uv3 := mesh.uv3,
                     uv4 := mesh.uv4, uv5 := mesh.uv5, uv6 := mesh.uv6 }
  let d2 := prepareDefinesForPrePass scenePrePass d1
  if (oldNormal != d2.NORMAL) || (oldTangent != d2.TANGENT) ||
      (oldColor != d2.VERTEXCOLOR) || uvChanged then
    markAsAttributesDirty d2
  else d2

/-- Per-stage compilation state slice consumed by processDefines. -/
structure CompState where
  compilationString : String
  builtCompilationString : String
  uniforms : List String
  samplers : List String
deriving DecidableEq

/-- Check that the first list opens the second list. -/
def leadsWith : List Char → List Char → Bool
  | [], _ => true
  | _ :: _, [] => false
  | p :: ps, c :: cs => p = c && leadsWith ps cs

/-- Replacement of the first occurrence of a pattern inside a character
list, matching the semantics of the JS String replace with a plain string
pattern. -/
def spliceAnchor (pat rep : List Char) : List Char → List Char
  | [] => []
  | c :: rest =>
      if leadsWith pat (c :: rest) then rep ++ (c :: rest).drop pat.length
      else c :: spliceAnchor pat rep rest

/-- String wrapper for spliceAnchor. -/
def stringReplaceOnce (s pat rep : String) : String :=
  ⟨spliceAnchor pat.data rep.data s.data⟩

/-- Application of the repeatable content splices: each pair rewrites one
anchor of the vertex stage text into the generated repeated text, as
MorphTargetsBlock.replaceRepeatableContent does through the JS String
replace. -/
def applySubsts (subs : List (String × String)) (s : String) : String :=
  subs.foldl (fun acc p => stringReplaceOnce acc p.1 p.2) s

/-- Slice of the shared build data consumed by processDefines. The
block-supplied callbacks live outside the sources and are modelled from
the spec: each repeatable content block splices its generated text over
its anchor in the vertex stage text, each dynamic uniform block appends
vertex stage uniforms and uniform buffer names, and each fallback block
contributes fallback names. -/
structure ProcessSharedData where
  repeatableSubsts : List (String × String)
  dynamicUniforms : List String
  uniformBuffers : List String
  fallbackNames : List String

/-- Result record returned by processDefines on a cache miss. -/
structure ProcessResult where
  lightDisposed : Bool
  uniformBuffers : List String
  mergedUniforms : List String
  mergedSamplers : List String
  fallbacks : List String
deriving DecidableEq

/-- Merge of a fragment stage resource list into the vertex stage list as
in processDefines: each fragment entry is appended only when not already
present in the accumulated list. -/
def mergeStageLists (v f : List String) : List String :=
  f.foldl (fun acc u => if u ∈ acc then acc else acc ++ [u]) v

/-- Embedding of CoreNodeMaterial.processDefines from its dirty check on;
the input defines are the defines after the camera and per-block define
preparation steps (which precede in the source). On a cache hit (defines
not dirty) nothing happens and null is returned. On a cache miss the
stage texts are re-spliced from the built texts, the dynamic uniform
blocks update the vertex uniforms, the vertex and fragment uniform and
sampler lists are merged (the merged lists alias the vertex state
arrays), the fallbacks are collected and the defines are marked
processed. -/
def processDefines (sd : ProcessSharedData) (d : NDefines) (vs fs : CompState) :
    Option ProcessResult × NDefines × CompState × CompState :=
  if d.isDirty then
    let lightDisposed := d.areLightsDisposed
    let d1 := markAsProcessed d
    let vs1 := { vs with
      compilationString := applySubsts sd.repeatableSubsts vs.builtCompilationString }
    let fs1 := { fs with compilationString := fs.builtCompilationString }
    let vs2 := { vs1 with uniforms := vs1.uniforms ++ sd.dynamicUniforms }
    let mergedUniforms := mergeStageLists vs2.uniforms fs1.uniforms
    let mergedSamplers := mergeStageLists vs2.samplers fs1.samplers
    let vs3 := { vs2 with uniforms := mergedUniforms, samplers := mergedSamplers }
    (some { lightDisposed := lightDisposed
            uniformBuffers := sd.uniformBuffers
            mergedUniforms := mergedUniforms
            mergedSamplers := mergedSamplers
            fallbacks := sd.fallbackNames }, d1, vs3, fs1)
  else (none, d, vs, fs)

/-- Defines state with every flag clear. -/
def cleanDefines : NDefines :=
  { NORMAL := false, TANGENT := false, VERTEXCOLOR := false,
    uv1 := false, uv2 := false, uv3 := false, uv4 := false, uv5 := false, uv6 := false,
    PREPASS := false, isDirtyFlag := false, areAttributesDirty := false,
    areMiscDirty := false, areImageProcessingDirty := false, areLightsDisposed := false }

/-- Defines state after markAsUnprocessed on clean defines: no category
dirty, master flag raised (the hot-swap retry state). -/
def unprocessedDefines : NDefines := markAsUnprocessed cleanDefines

/-- Concrete shared data for the claim C4 counterexample: one repeatable
content splice. -/
def sdC4 : ProcessSharedData :=
  { repeatableSubsts := [("ANCHOR0", "spliced")]
    dynamicUniforms := [], uniformBuffers := [], fallbackNames := [] }

/-- Concrete vertex stage state for the claim C4 counterexample. -/
def vsC4 : CompState :=
  { compilationString := "old text", builtCompilationString := "base ANCHOR0 text"
    uniforms := ["u1"], samplers := [] }

/-- Concrete fragment stage state for the claim C4 counterexample. -/
def fsC4 : CompState :=
  { compilationString := "old frag", builtCompilationString := "frag text"
    uniforms := ["u2"], samplers := [] }

/-! ## Block graph and the recursive build walks -/

/-- Graph node slice read by the recursive build walks: the target
affinity, the connected producer of each input point (`none` for an
unconnected point), the teleport-out data, and the uniqueness data. -/
structure Block where
  id : Nat
  target : Nat
  inputSources : List (Option Nat)
  isTeleportOut : Bool
  entryPoint : Option Nat
  isUnique : Bool
  className : String
deriving DecidableEq

/-- Material graph: the finite list of its blocks. -/
structure Graph where
  blocks : List Block
deriving DecidableEq

/-- Lookup of a block by id. -/
def Graph.find (g : Graph) (i : Nat) : Option Block :=
  g.blocks.find? (fun b => b.id == i)

/-- All block ids of the graph. -/
def Graph.ids (g : Graph) : List Nat := g.blocks.map Block.id

/-- Ids a walk recurses into from a block, in source order: the connected
producer of each input point (skipping a self link, as the source object
comparison does), then the entry point of a teleport-out block. -/
def childIds (b : Block) : List Nat :=
  (b.inputSources.filterMap id).filter (fun c => c != b.id) ++
    (if b.isTeleportOut then b.entryPoint.toList else [])

/-- One step of the walk relation: from the block with id a the walk
recurses into id c. -/
def walkEdge (g : Graph) (a c : Nat) : Prop :=
  ∃ b, g.find a = some b ∧ c ∈ childIds b

/-- Reachability along walk steps: through ordinary input links and
through teleport entry points. -/
inductive Reaches (g : Graph) : Nat → Nat → Prop
  | refl (a : Nat) : Reaches g a a
  | head {a c b : Nat} : walkEdge g a c → Reaches g c b → Reaches g a b

/-- Wellformed graph: distinct block ids and walk steps staying inside
the graph. -/
structure Graph.WF (g : Graph) : Prop where
  nodupIds : g.ids.Nodup
  closed : ∀ b ∈ g.blocks, ∀ c ∈ childIds b, c ∈ g.ids

/-- Embedding of NodeMaterial.resetDualBlocks with explicit fuel: the
buildId stamp of the node is rewritten to the given id when its target is
VertexAndFragment, and the walk then recurses into the connected inputs
and the teleport entry point. The source walk has no visited set and
terminates because the graph is acyclic; the theorems supply the fuel. A
dangling id never occurs in the source, where the walk follows object
references; the wellformedness hypotheses exclude it here. -/
def resetDualBlocks (g : Graph) (id : Int) : Nat → Nat → (Nat → Int) → (Nat → Int)
  | 0, _, st => st
  | fuel + 1, node, st =>
      match g.find node with
      | none => st
      | some b =>
          let st1 := if b.target = targetVertexAndFragment then
              (fun x => if x = node then id else st x) else st
          (childIds b).foldl (fun s c => resetDualBlocks g id fuel c s) st1

/-- Embedding of the dual-block reset loop of NodeMaterial.build, run
after the vertex stage build and before the fragment stage build: every
fragment node is walked by resetDualBlocks with id one less than the
current build id. -/
def resetDualForFragmentRoots (g : Graph) (buildId : Int) (fuel : Nat)
    (roots : List Nat) (st : Nat → Int) : Nat → Int :=
  roots.foldl (fun s r => resetDualBlocks g (buildId - 1) fuel r s) st

/-- Error message of the uniqueness check of the block attachment. -/
def uniqueErrorMsg (className : String) : String :=
  "Cannot have multiple blocks of type " ++ className ++ " in the same NodeMaterial"

/-- Check whether some attached block carries the given class name, as
the uniqueness scan over attachedBlocks does. -/
def hasAttachedSameClass (g : Graph) (attached : List Nat) (cn : String) : Bool :=
  attached.any fun o =>
    match g.find o with
    | some ob => ob.className == cn
    | none => false

/-- Embedding of the recursive block initialization of the build pass
(NodeMaterial initializeBlock) restricted to the state the claims
observe: the attached block list. A node not yet attached is checked, when
unique, against every attached block of the same class name (throwing the
uniqueness error) and then attached; a node already attached is neither
checked nor re-attached. The walk then recurses into the connected inputs
and the teleport entry point. The cross-stage worklist bookkeeping and
the clearing of the per-point variable names have no effect on attachment
and are not modelled; a dangling id never occurs in the source and is
excluded by the wellformedness hypotheses. -/
def initBlock (g : Graph) : Nat → Nat → List Nat → Except String (List Nat)
  | 0, _, attached => .ok attached
  | fuel + 1, node, attached =>
      match g.find node with
      | none => .ok attached
      | some b =>
          (if node ∈ attached then Except.ok attached
           else if b.isUnique && hasAttachedSameClass g attached b.className then
             Except.error (uniqueErrorMsg b.className)
           else Except.ok (attached ++ [node])) >>= fun attached1 =>
            (childIds b).foldlM (fun acc c => initBlock g fuel c acc) attached1

/-- Embedding of the block initialization loops of NodeMaterial.build:
every vertex output node is walked, then every fragment output node,
against the shared attached block list. -/
def initPass (g : Graph) (fuel : Nat) (vertexRoots fragmentRoots : List Nat)
    (attached : List Nat) : Except String (List Nat) :=
  (vertexRoots.foldlM (fun acc r => initBlock g fuel r acc) attached) >>= fun a1 =>
    fragmentRoots.foldlM (fun acc r => initBlock g fuel r acc) a1

/-- Check for the error outcome of a pass. -/
def isError {α : Type} : Except String α → Bool
  | .error _ => true
  | .ok _ => false

/-- Embedding of NodeMaterial.gatherBlocks with explicit fuel: a node
already in the list is not revisited; otherwise it is appended and the
walk recurses into the connected inputs and the teleport entry point. -/
def gatherBlocks (g : Graph) : Nat → Nat → List Nat → List Nat
  | 0, _, list => list
  | fuel + 1, node, list =>
      if node ∈ list then list
      else
        let list1 := list ++ [node]
        match g.find node with
        | none => list1
        | some b => (childIds b).foldl (fun acc c => gatherBlocks g fuel c acc) list1

/-- Number of graph ids still absent from a list, the measure that bounds
the gather recursion. -/
def missingCount (g : Graph) (list : List Nat) : Nat :=
  (g.ids.filter fun i => decide (i ∉ list)).length

/-- Uniqueness invariant of the attached block list: no two distinct
attached blocks of unique kinds share a class name. -/
def UniqueInv (g : Graph) (att : List Nat) : Prop :=
  ∀ x ∈ att, ∀ y ∈ att, x ≠ y →
    ∀ bx by2 : Block, g.find x = some bx → g.find y = some by2 →
      bx.isUnique = true → by2.isUnique = true → bx.className ≠ by2.className

/-- Concrete graph for claim C7: fragment root 0 reads blocks 1 and 2,
two unique blocks of the same class. -/
def gC7 : Graph :=
  { blocks :=
      [ { id := 0, target := targetFragment, inputSources := [some 1, some 2],
          isTeleportOut := false, entryPoint := none, isUnique := false,
          className := "FragmentOutputBlock" },
        { id := 1, target := targetNeutral, inputSources := [],
          isTeleportOut := false, entryPoint := none, isUnique := true,
          className := "UniqueKindBlock" },
        { id := 2, target := targetNeutral, inputSources := [],
          isTeleportOut := false, entryPoint := none, isUnique := true,
          className := "UniqueKindBlock" } ] }

/-- Rank function for the claim C7 graph. -/
def rkC7 : Nat → Nat := fun n => if n = 0 then 1 else 0

/-! ## Serialization round trip -/

/-- Port-level block used by the serialization model: identity, type tag
(customType, the deserialization factory key), target affinity, and the
declared input and output port names in order. -/
structure PBlock where
  id : Nat
  customType : String
  target : Nat
  inputNames : List String
  outputNames : List String
deriving DecidableEq

/-- Connection of the port graph: the output outputName of fromBlock
feeds the input inputName of toBlock. -/
structure PEdge where
  toBlock : Nat
  inputName : String
  fromBlock : Nat
  outputName : String
deriving DecidableEq

/-- Port-level material graph with its root-node lists; attachedBlocks is
the blocks list itself. -/
structure PGraph where
  blocks : List PBlock
  edges : List PEdge
  vertexOutputNodes : List Nat
  fragmentOutputNodes : List Nat
deriving DecidableEq

/-- Lookup of a block by id inside a block list. -/
def findById (l : List PBlock) (i : Nat) : Option PBlock :=
  l.find? fun b => b.id == i

/-- Lookup of a block of the graph by id. -/
def PGraph.findBlock (G : PGraph) (i : Nat) : Option PBlock :=
  findById G.blocks i

/-- Producer connection of one input point, if any: the connectedPoint of
the input named n of block t. -/
def inputSource (edges : List PEdge) (t : Nat) (n : String) : Option PEdge :=
  edges.find? fun e => e.toBlock == t && e.inputName == n

/-- View of the port graph as a walk graph, giving gatherBlocks the
input-port-order children the source walk visits. -/
def toWalkGraph (G : PGraph) : Graph :=
  { blocks := G.blocks.map fun b =>
      { id := b.id, target := b.target
        inputSources := b.inputNames.map fun n => (inputSource G.edges b.id n).map PEdge.fromBlock
        isTeleportOut := false, entryPoint := none, isUnique := false
        className := b.customType } }

/-- Serialized input record: the exchange format entry
inputName / targetBlockId / targetConnectionName. -/
structure SInput where
  inputName : String
  targetBlockId : Nat
  targetConnectionName : String
deriving DecidableEq

/-- Serialized block record of the exchange format. -/
structure SBlock where
  id : Nat
  customType : String
  target : Nat
  inputs : List SInput
deriving DecidableEq

/-- Serialized material object: blocks plus the declared root ids. -/
structure SMaterial where
  blocks : List SBlock
  outputNodes : List Nat
deriving DecidableEq

/-- Modelled from the spec: block serialization (NodeMaterialBlock
serialize lives outside the sources) emits the block id, its type tag,
its target, and one input record per connected input point naming the
input, the producing block id and the producing output name. -/
def serializeBlock (G : PGraph) (b : PBlock) : SBlock :=
  { id := b.id, customType := b.customType, target := b.target
    inputs := b.inputNames.filterMap fun n =>
      (inputSource G.edges b.id n).map fun e =>
        { inputName := n, targetBlockId := e.fromBlock
          targetConnectionName := e.outputName } }

/-- The gather loops of NodeMaterial.serialize: blocks reachable from the
vertex roots, then from the fragment roots, collected into one list. -/
def gatheredBlocks (G : PGraph) (fuel : Nat) : List Nat :=
  G.fragmentOutputNodes.foldl (fun acc r => gatherBlocks (toWalkGraph G) fuel r acc)
    (G.vertexOutputNodes.foldl (fun acc r => gatherBlocks (toWalkGraph G) fuel r acc) [])

/-- The outputNodes loop of NodeMaterial.serialize: the vertex root ids,
then each fragment root id not already present. -/
def serializeOutputNodes (G : PGraph) : List Nat :=
  G.fragmentOutputNodes.foldl (fun acc r => if r ∈ acc then acc else acc ++ [r])
    G.vertexOutputNodes

/-- Embedding of NodeMaterial.serialize: the gathered blocks are
serialized in gather order, then every attached block not already
serialized, and the declared root ids are recorded. -/
def serializeMaterial (G : PGraph) (fuel : Nat) : SMaterial :=
  let gathered := gatheredBlocks G fuel
  { blocks :=
      gathered.filterMap (fun i => (G.findBlock i).map (serializeBlock G)) ++
        (G.blocks.filter fun b => decide (b.id ∉ gathered)).map (serializeBlock G)
    outputNodes := serializeOutputNodes G }

/-- Block factory keyed by type tag, standing for GetClass plus the block
constructor: it yields the declared input and output port names of the
kind, or none for an unknown tag (such a block is skipped by the
parse). -/
def Factory : Type := String → Option (List String × List String)

/-- The block instantiation loop of parseSerializedObject: each serialized
block whose type tag resolves is rebuilt with its declared ports; the ids
of the serialized object are kept as the identity of the rebuilt blocks
(the map correspondence of the source). -/
def parseBlocks (factory : Factory) (sm : SMaterial) : List PBlock :=
  sm.blocks.filterMap fun sb =>
    (factory sb.customType).map fun pr =>
      { id := sb.id, customType := sb.customType, target := sb.target
        inputNames := pr.1, outputNames := pr.2 }

/-- Innermost loop of restoreConnections: over the serialized input
records of one candidate, connecting the record matching the visited
block and output name when the input point exists and is still free, then
recursing into the candidate. -/
def inputFold (recur : Nat → List PEdge → List PEdge) (blockId : Nat) (outName : String)
    (candidate : SBlock) (target : PBlock) (ed : List PEdge) : List PEdge :=
  candidate.inputs.foldl
    (fun ed3 inp =>
      if inp.targetBlockId == blockId && inp.targetConnectionName == outName then
        if target.inputNames.contains inp.inputName &&
            (inputSource ed3 candidate.id inp.inputName).isNone then
          recur candidate.id
            (ed3 ++ [{ toBlock := candidate.id, inputName := inp.inputName
                       fromBlock := blockId, outputName := outName }])
        else ed3
      else ed3)
    ed

/-- Middle loop of restoreConnections: over the serialized candidate
blocks, skipping candidates whose block was not instantiated. -/
def candFold (recur : Nat → List PEdge → List PEdge) (sm : SMaterial)
    (newBlocks : List PBlock) (blockId : Nat) (outName : String)
    (ed : List PEdge) : List PEdge :=
  sm.blocks.foldl
    (fun ed2 candidate =>
      match findById newBlocks candidate.id with
      | none => ed2
      | some target => inputFold recur blockId outName candidate target ed2)
    ed

/-- Embedding of NodeMaterial.restoreConnections with explicit fuel: for
each output point of the visited block, scan all serialized blocks for
input records naming that output, connect the free ones and recurse into
each newly connected target. The source recursion terminates because each
nested call follows a new connection; the theorems supply the fuel. -/
def restoreConnections (sm : SMaterial) (newBlocks : List PBlock) :
    Nat → Nat → List PEdge → List PEdge
  | 0, _, ed => ed
  | fuel + 1, blockId, ed =>
      match findById newBlocks blockId with
      | none => ed
      | some block =>
          block.outputNames.foldl
            (fun ed1 outName =>
              candFold (restoreConnections sm newBlocks fuel) sm newBlocks blockId
                outName ed1)
            ed

/-- The connection loop of parseSerializedObject outside merge mode: the
restoration starts only from instantiated blocks with no declared input
points (true leaves), in serialized order, from an empty connection
state. -/
def parseEdges (sm : SMaterial) (newBlocks : List PBlock) (fuel : Nat) : List PEdge :=
  sm.blocks.foldl
    (fun ed sb =>
      match findById newBlocks sb.id with
      | none => ed
      | some block =>
          if block.inputNames.isEmpty then restoreConnections sm newBlocks fuel sb.id ed
          else ed)
    []

/-- addVertexOutputNode on the port graph: an early return when already a
vertex root, otherwise the target is overwritten to Vertex and the node
appended to the vertex root list. -/
def addVertexOutputNodeP (S : PGraph) (node : Nat) : PGraph :=
  if node ∈ S.vertexOutputNodes then S
  else
    { S with
      blocks := S.blocks.map fun b =>
        if b.id = node then { b with target := targetVertex } else b
      vertexOutputNodes := S.vertexOutputNodes ++ [node] }

/-- addFragmentOutputNode on the port graph. -/
def addFragmentOutputNodeP (S : PGraph) (node : Nat) : PGraph :=
  if node ∈ S.fragmentOutputNodes then S
  else
    { S with
      blocks := S.blocks.map fun b =>
        if b.id = node then { b with target := targetFragment } else b
      fragmentOutputNodes := S.fragmentOutputNodes ++ [node] }

/-- addOutputNode on the port graph, as called by the outputs loop of
parseSerializedObject: the vertex branch first, then the fragment test on
the re-read target. -/
def addOutputNodeP (S : PGraph) (node : Nat) : PGraph :=
  match S.findBlock node with
  | none => S
  | some b =>
      let S1 := if b.target.land targetVertex ≠ 0 then addVertexOutputNodeP S node else S
      match S1.findBlock node with
      | none => S1
      | some b2 =>
          if b2.target.land targetFragment ≠ 0 then addFragmentOutputNodeP S1 node else S1

/-- Embedding of parseSerializedObject outside merge mode: clear, rebuild
the blocks, restore the connections starting from the no-input blocks,
then re-declare the output nodes. -/
def parseSerializedMaterial (factory : Factory) (sm : SMaterial) (fuel : Nat) : PGraph :=
  let newBlocks := parseBlocks factory sm
  let edges := parseEdges sm newBlocks fuel
  sm.outputNodes.foldl addOutputNodeP
    { blocks := newBlocks, edges := edges
      vertexOutputNodes := [], fragmentOutputNodes := [] }

/-- Forward restorability: the blocks the connection restoration reaches,
namely the no-input blocks and everything fed, transitively, by a
restorable block. -/
inductive ProcReach (G : PGraph) : Nat → Prop
  | leaf (b : PBlock) : b ∈ G.blocks → b.inputNames = [] → ProcReach G b.id
  | step (e : PEdge) : e ∈ G.edges → ProcReach G e.fromBlock → ProcReach G e.toBlock

/-- Wellformed port graph: distinct block ids, one connection per input
point, connections naming existing ports, and root lists of the shape
addOutputNode leaves (each vertex root carries target Vertex, each
fragment root target Fragment, no duplicates). -/
structure PGraph.WF (G : PGraph) : Prop where
  nodupIds : (G.blocks.map PBlock.id).Nodup
  edgeKeysNodup : (G.edges.map fun e => (e.toBlock, e.inputName)).Nodup
  edgeTo : ∀ e ∈ G.edges, ∃ b ∈ G.blocks, b.id = e.toBlock ∧ e.inputName ∈ b.inputNames
  edgeFrom : ∀ e ∈ G.edges, ∃ b ∈ G.blocks, b.id = e.fromBlock ∧ e.outputName ∈ b.outputNames
  vertexRootsNodup : G.vertexOutputNodes.Nodup
  fragmentRootsNodup : G.fragmentOutputNodes.Nodup
  vertexRootsTarget : ∀ r ∈ G.vertexOutputNodes,
    ∃ b ∈ G.blocks, b.id = r ∧ b.target = targetVertex
  fragmentRootsTarget : ∀ r ∈ G.fragmentOutputNodes,
    ∃ b ∈ G.blocks, b.id = r ∧ b.target = targetFragment

/-- Concrete graph for the claim C9 counterexample: block 1 has a
declared but unconnected input and feeds block 2, the fragment root. -/
def gC9 : PGraph :=
  { blocks :=
      [ { id := 1, customType := "TA", target := targetNeutral
          inputNames := ["in"], outputNames := ["out"] },
        { id := 2, customType := "TB", target := targetFragment
          inputNames := ["in"], outputNames := ["out"] } ]
    edges := [{ toBlock := 2, inputName := "in", fromBlock := 1, outputName := "out" }]
    vertexOutputNodes := []
    fragmentOutputNodes := [2] }

/-- Factory for the claim C9 graphs. -/
def factoryC9 : Factory := fun t =>
  if t = "TA" then some (["in"], ["out"])
  else if t = "TB" then some (["in"], ["out"])
  else if t = "TIn" then some ([], ["out"])
  else none

/-- Soundness invariant of the connection state: every restored edge is a
graph edge and no input point is connected twice. -/
def EdgeInv (G : PGraph) (ed : List PEdge) : Prop :=
  (∀ e ∈ ed, e ∈ G.edges) ∧ (ed.map fun e => (e.toBlock, e.inputName)).Nodup

/-- Completion of a block in a connection state: every graph edge leaving
it has been restored. -/
def OutDone (G : PGraph) (ed : List PEdge) (i : Nat) : Prop :=
  ∀ e ∈ G.edges, e.fromBlock = i → e ∈ ed

/-- Number of graph edges still missing from the connection state, the
measure that bounds the restoration recursion. -/
def unresCount (G : PGraph) (ed : List PEdge) : Nat :=
  (G.edges.filter fun e => decide (e ∉ ed)).length

/-- Running invariant of one restoration call: the connection state is
sound, the unrestored count stays under the fuel bound, and every edge
not inherited from the entry state has a completed target block. -/
def RestoreInv (G : PGraph) (ed0 : List PEdge) (bound : Nat) (ed : List PEdge) : Prop :=
  EdgeInv G ed ∧ unresCount G ed < bound ∧
    ∀ e ∈ ed, e ∈ ed0 ∨ OutDone G ed e.toBlock

/-- Running invariant of the outer connection loop of
parseSerializedObject: the connection state is sound, stays under the
fuel bound, and every restored edge has a completed target block. -/
def ParseInv (G : PGraph) (fuel : Nat) (ed : List PEdge) : Prop :=
  EdgeInv G ed ∧ unresCount G ed < fuel ∧ ∀ e ∈ ed, OutDone G ed e.toBlock

/-- Concrete fully restorable graph for the claim C9 witness: the
no-input block 3 feeds block 1, which feeds the fragment root 2. -/
def gC9ok : PGraph :=
  { blocks :=
      [ { id := 1, customType := "TA", target := targetNeutral
          inputNames := ["in"], outputNames := ["out"] },
        { id := 2, customType := "TB", target := targetFragment
          inputNames := ["in"], outputNames := ["out"] },
        { id := 3, customType := "TIn", target := targetNeutral
          inputNames := [], outputNames := ["out"] } ]
    edges := [{ toBlock := 2, inputName := "in", fromBlock := 1, outputName := "out" },
              { toBlock := 1, inputName := "in", fromBlock := 3, outputName := "out" }]
    vertexOutputNodes := []
    fragmentOutputNodes := [2] }

end NodeMat

namespace NodeMat

/-! ## Theorems for claims C10, C2, C1 -/

/-- Claim C10, counterexample: with block 7 of target VertexAndFragment
already present in the vertex root list, addOutputNode adds it to the
fragment root list and overwrites its target to Fragment, contradicting
the claim that such a block is never added to the fragment list and always
gets target Vertex. -/
theorem addOutputNode_dual_already_vertex_counterexample :
    fragRootsOf (addOutputNode rootsC10 7) = [7] ∧
      targetOf (addOutputNode rootsC10 7) 7 = some targetFragment ∧
      some targetFragment ≠ some targetVertex :=
  ⟨by decide, by decide, by decide⟩

/-- Claim C10, amended: for a block of target VertexAndFragment that is
not already a vertex root, addOutputNode appends it to the vertex root
list only, overwrites its target to Vertex, and leaves the fragment root
list unchanged, because the fragment-affinity test reads the target after
the vertex branch has rewritten it. -/
theorem addOutputNode_dual_targets_vertex_only (m : RootsState) (node : Nat)
    (htarget : m.target node = some targetVertexAndFragment)
    (hnotmem : node ∉ m.vertexOutputNodes) :
    addOutputNode m node =
      .ok { vertexOutputNodes := m.vertexOutputNodes ++ [node]
            fragmentOutputNodes := m.fragmentOutputNodes
            target := fun b => if b = node then some targetVertex else m.target b } := by
  have hv : targetVertexAndFragment.land targetVertex ≠ 0 := by decide
  have hf : ¬targetVertex.land targetFragment ≠ 0 := by decide
  simp only [addOutputNode, htarget, if_pos hv, addVertexOutputNode, if_neg hnotmem]
  simp [hf]

/-- Concrete state for the amended claim C10 witness: block 4 has target
VertexAndFragment and is not yet a vertex root. -/
def rootsW10 : RootsState :=
  { vertexOutputNodes := []
    fragmentOutputNodes := [9]
    target := fun b => if b = 4 then some targetVertexAndFragment else none }

/-- Witness for the amended claim C10 at a concrete input. -/
theorem addOutputNode_dual_targets_vertex_only_witness :
    addOutputNode rootsW10 4 =
      .ok { vertexOutputNodes := rootsW10.vertexOutputNodes ++ [4]
            fragmentOutputNodes := rootsW10.fragmentOutputNodes
            target := fun b => if b = 4 then some targetVertex else rootsW10.target b } :=
  addOutputNode_dual_targets_vertex_only rootsW10 4 rfl (by decide)

/-- Claim C2, counterexample: a material whose fragment output node list
is empty but whose vertex output node list is also empty (in Material
mode) throws the vertexOutputNode error, not the fragmentOutputNode error
the claim promises. -/
theorem buildStartTrace_both_empty_counterexample :
    buildStartTrace [] [] NodeMaterialModes.Material =
        [BuildAction.throwBuildError vertexRootErrorMsg] ∧
      BuildAction.throwBuildError fragmentRootErrorMsg ∉
        buildStartTrace [] [] NodeMaterialModes.Material := by
  constructor
  · rfl
  · simp [buildStartTrace, vertexRootErrorMsg, fragmentRootErrorMsg]

/-- Claim C2, amended: build throws the fragmentOutputNode structural
error before any compilation state or shared build data is allocated
whenever the fragment root list is empty, provided the vertex root check
passes first (a nonempty vertex root list or Particle mode); an empty
vertex root list outside Particle mode instead throws the
vertexOutputNode error first, likewise before any allocation. -/
theorem buildStartTrace_structural_errors :
    (∀ (v f : List Nat) (mode : NodeMaterialModes), f.length = 0 →
      (v.length ≠ 0 ∨ mode = NodeMaterialModes.Particle) →
      buildStartTrace v f mode = [BuildAction.throwBuildError fragmentRootErrorMsg]) ∧
    (∀ (v f : List Nat) (mode : NodeMaterialModes), v.length = 0 →
      mode ≠ NodeMaterialModes.Particle →
      buildStartTrace v f mode = [BuildAction.throwBuildError vertexRootErrorMsg]) := by
  constructor
  · intro v f mode hf hv
    rcases hv with hv | hv
    · simp [buildStartTrace, hf, hv]
    · subst hv
      simp [buildStartTrace, hf]
  · intro v f mode hv hmode
    simp [buildStartTrace, hv, hmode]

/-- Witness for the amended claim C2 at concrete inputs: a material with
one vertex root and no fragment root throws the fragment error, and a
material with no vertex root in Material mode throws the vertex error. -/
theorem buildStartTrace_structural_errors_witness :
    buildStartTrace [3] [] NodeMaterialModes.Material =
        [BuildAction.throwBuildError fragmentRootErrorMsg] ∧
      buildStartTrace [] [7] NodeMaterialModes.Material =
        [BuildAction.throwBuildError vertexRootErrorMsg] :=
  ⟨buildStartTrace_structural_errors.1 [3] [] NodeMaterialModes.Material rfl
      (Or.inl (by decide)),
    buildStartTrace_structural_errors.2 [] [7] NodeMaterialModes.Material rfl
      (by decide)⟩

/-- Claim C1, counterexample: on a rebind the embedded bindForSubMesh
pushes the bindable block, then the forced bindable block, then the input
block value, which differs from the order the claim states (input first). -/
theorem bindForSubMesh_order_counterexample :
    (bindForSubMesh bindSdC1 true true false).filter isValuePush =
        [BindEvent.bindBlock 2, BindEvent.bindBlock 3, BindEvent.transmitValue 1] ∧
      claimedRebindOrder bindSdC1 =
        [BindEvent.transmitValue 1, BindEvent.bindBlock 2, BindEvent.bindBlock 3] ∧
      (bindForSubMesh bindSdC1 true true false).filter isValuePush ≠
        claimedRebindOrder bindSdC1 := by
  refine ⟨rfl, rfl, by decide⟩

/-- Claim C1, amended: on every draw with an active bound effect where a
rebind is required, bindForSubMesh first transmits the world matrices to
every input block, then binds all bindable blocks, then all forced
bindable blocks, then transmits all input block values, in that fixed
order. -/
theorem bindForSubMesh_rebind_order (sd : BindSharedData) (isFrozen : Bool) :
    bindForSubMesh sd true true isFrozen =
      sd.inputBlocks.map BindEvent.transmitWorld
        ++ sd.bindableBlocks.map BindEvent.bindBlock
        ++ sd.forcedBindableBlocks.map BindEvent.bindBlock
        ++ sd.inputBlocks.map BindEvent.transmitValue
        ++ [BindEvent.afterBind] := by
  simp [bindForSubMesh]

/-! ## Theorems for claims C4, C5, C6 -/

/-- Claim C4, counterexample: a defines set in the unprocessed state (no
dirty category set, master flag raised by markAsUnprocessed, as the
hot-swap path leaves it) makes processDefines return a non-null result
and re-splice the repeatable content into the vertex stage text,
contradicting the claim that no dirty category implies a null return with
no re-splicing. -/
theorem processDefines_unprocessed_counterexample :
    (unprocessedDefines.areAttributesDirty = false ∧
        unprocessedDefines.areMiscDirty = false ∧
        unprocessedDefines.areImageProcessingDirty = false ∧
        unprocessedDefines.areLightsDisposed = false) ∧
      (processDefines sdC4 unprocessedDefines vsC4 fsC4).1 ≠ none ∧
      (processDefines sdC4 unprocessedDefines vsC4 fsC4).2.2.1.compilationString =
        "base spliced text" := by
  refine ⟨by decide, by decide, by decide⟩

/-- Claim C4, amended: when the master dirty flag of the defines is clear
after the per-block define preparation (which holds exactly when no dirty
category was set and the defines were not marked unprocessed),
processDefines returns null and leaves the defines and both stage states
untouched: no re-splicing, no uniform or sampler merging, no fallback
collection. -/
theorem processDefines_clean_short_circuit (sd : ProcessSharedData) (d : NDefines)
    (vs fs : CompState) (h : d.isDirty = false) :
    processDefines sd d vs fs = (none, d, vs, fs) := by
  simp [processDefines, h]

/-- Witness for the amended claim C4 at a concrete input. -/
theorem processDefines_clean_short_circuit_witness :
    processDefines sdC4 cleanDefines vsC4 fsC4 = (none, cleanDefines, vsC4, fsC4) :=
  processDefines_clean_short_circuit sdC4 cleanDefines vsC4 fsC4 (by decide)

/-- Claim C5: when the mesh agrees with the stored defines on every
attribute-derived capability except the vertex color channel, and the
scene prepass configuration is unchanged, prepareDefinesForAttributes
marks the attributes category dirty (raising the master flag) and no
other dirty category. -/
theorem prepareDefinesForAttributes_color_only_attributes_dirty
    (mesh : MeshCaps) (d : NDefines)
    (hmisc : d.areMiscDirty = false) (himg : d.areImageProcessingDirty = false)
    (hlights : d.areLightsDisposed = false)
    (hn : mesh.hasNormal = d.NORMAL) (ht : mesh.hasTangent = d.TANGENT)
    (h1 : mesh.uv1 = d.uv1) (h2 : mesh.uv2 = d.uv2) (h3 : mesh.uv3 = d.uv3)
    (h4 : mesh.uv4 = d.uv4) (h5 : mesh.uv5 = d.uv5) (h6 : mesh.uv6 = d.uv6)
    (hcol : (mesh.useVertexColors && mesh.hasColor) ≠ d.VERTEXCOLOR) :
    (prepareDefinesForAttributes mesh d.PREPASS d).areAttributesDirty = true ∧
      (prepareDefinesForAttributes mesh d.PREPASS d).isDirtyFlag = true ∧
      (prepareDefinesForAttributes mesh d.PREPASS d).areMiscDirty = false ∧
      (prepareDefinesForAttributes mesh d.PREPASS d).areImageProcessingDirty = false ∧
      (prepareDefinesForAttributes mesh d.PREPASS d).areLightsDisposed = false := by
  have hcol2 : (d.VERTEXCOLOR != (mesh.useVertexColors && mesh.hasColor)) = true := by
    simpa [bne_iff_ne] using fun hh => hcol hh.symm
  simp [prepareDefinesForAttributes, prepareDefinesForPrePass, hn, ht,
    h1, h2, h3, h4, h5, h6, hcol2, markAsAttributesDirty, hmisc, himg, hlights]

/-- Witness for claim C5 at a concrete input: a vertex color channel
appears on the mesh while everything else is unchanged. -/
theorem prepareDefinesForAttributes_color_only_attributes_dirty_witness :
    (prepareDefinesForAttributes
        { hasNormal := false, hasTangent := false, useVertexColors := true,
          hasColor := true, uv1 := false, uv2 := false, uv3 := false,
          uv4 := false, uv5 := false, uv6 := false }
        cleanDefines.PREPASS cleanDefines).areAttributesDirty = true ∧
      (prepareDefinesForAttributes
        { hasNormal := false, hasTangent := false, useVertexColors := true,
          hasColor := true, uv1 := false, uv2 := false, uv3 := false,
          uv4 := false, uv5 := false, uv6 := false }
        cleanDefines.PREPASS cleanDefines).isDirtyFlag = true ∧
      (prepareDefinesForAttributes
        { hasNormal := false, hasTangent := false, useVertexColors := true,
          hasColor := true, uv1 := false, uv2 := false, uv3 := false,
          uv4 := false, uv5 := false, uv6 := false }
        cleanDefines.PREPASS cleanDefines).areMiscDirty = false ∧
      (prepareDefinesForAttributes
        { hasNormal := false, hasTangent := false, useVertexColors := true,
          hasColor := true, uv1 := false, uv2 := false, uv3 := false,
          uv4 := false, uv5 := false, uv6 := false }
        cleanDefines.PREPASS cleanDefines).areImageProcessingDirty = false ∧
      (prepareDefinesForAttributes
        { hasNormal := false, hasTangent := false, useVertexColors := true,
          hasColor := true, uv1 := false, uv2 := false, uv3 := false,
          uv4 := false, uv5 := false, uv6 := false }
        cleanDefines.PREPASS cleanDefines).areLightsDisposed = false :=
  prepareDefinesForAttributes_color_only_attributes_dirty
    { hasNormal := false, hasTangent := false, useVertexColors := true,
      hasColor := true, uv1 := false, uv2 := false, uv3 := false,
      uv4 := false, uv5 := false, uv6 := false }
    cleanDefines rfl rfl rfl rfl rfl rfl rfl rfl rfl rfl rfl (by decide)

/-- Unfolding step for mergeStageLists on a cons cell. -/
theorem mergeStageLists_cons (v : List String) (a : String) (rest : List String) :
    mergeStageLists v (a :: rest) =
      mergeStageLists (if a ∈ v then v else v ++ [a]) rest := rfl

/-- Characterization of mergeStageLists: the vertex list is kept whole and
in order as the front of the result, and the appended tail consists of
exactly the fragment entries absent from the vertex list, kept in
fragment order and each kept once. -/
theorem mergeStageLists_spec (f v : List String) :
    ∃ s, mergeStageLists v f = v ++ s ∧ s.Sublist f ∧ s.Nodup ∧
      ∀ u, u ∈ s ↔ u ∈ f ∧ u ∉ v := by
  induction f generalizing v with
  | nil => exact ⟨[], by simp [mergeStageLists], by simp, by simp⟩
  | cons a rest ih =>
    by_cases hav : a ∈ v
    · obtain ⟨s, hs, hsub, hnd, hmem⟩ := ih v
      refine ⟨s, ?_, hsub.cons a, hnd, ?_⟩
      · rw [mergeStageLists_cons, if_pos hav, hs]
      · intro u
        rw [hmem u]
        constructor
        · rintro ⟨hur, huv⟩
          exact ⟨List.mem_cons_of_mem a hur, huv⟩
        · rintro ⟨hur, huv⟩
          rcases List.mem_cons.1 hur with rfl | hur
          · exact absurd hav huv
          · exact ⟨hur, huv⟩
    · obtain ⟨s, hs, hsub, hnd, hmem⟩ := ih (v ++ [a])
      have hanot : a ∉ s := fun hch => ((hmem a).1 hch).2 (by simp)
      refine ⟨a :: s, ?_, hsub.cons₂ a, List.nodup_cons.2 ⟨hanot, hnd⟩, ?_⟩
      · rw [mergeStageLists_cons, if_neg hav, hs, List.append_assoc]
        rfl
      · intro u
        constructor
        · intro hu
          rcases List.mem_cons.1 hu with rfl | hu
          · exact ⟨List.mem_cons_self u rest, hav⟩
          · obtain ⟨hur, huv⟩ := (hmem u).1 hu
            refine ⟨List.mem_cons_of_mem a hur, fun hv => huv ?_⟩
            exact List.mem_append_left [a] hv
        · rintro ⟨hur, huv⟩
          rcases List.mem_cons.1 hur with rfl | hur
          · exact List.mem_cons_self u s
          · by_cases hua : u = a
            · subst hua
              exact List.mem_cons_self u s
            · refine List.mem_cons_of_mem a ((hmem u).2 ⟨hur, fun hv => ?_⟩)
              rcases List.mem_append.1 hv with hv | hv
              · exact huv hv
              · exact hua (List.mem_singleton.1 hv)

/-- Claim C6: on a cache miss, the merged uniform list is the vertex stage
uniform list (as updated by the dynamic uniform blocks) in its original
order, followed by exactly the fragment stage uniforms not already
present, in fragment order, none of them duplicated; the sampler lists
are merged the same way. -/
theorem processDefines_merge_characterization (sd : ProcessSharedData) (d : NDefines)
    (vs fs : CompState) (h : d.isDirty = true) :
    ∃ pr su ss, (processDefines sd d vs fs).1 = some pr ∧
      pr.mergedUniforms = (vs.uniforms ++ sd.dynamicUniforms) ++ su ∧
      su.Sublist fs.uniforms ∧ su.Nodup ∧
      (∀ u, u ∈ su ↔ u ∈ fs.uniforms ∧ u ∉ vs.uniforms ++ sd.dynamicUniforms) ∧
      pr.mergedSamplers = vs.samplers ++ ss ∧
      ss.Sublist fs.samplers ∧ ss.Nodup ∧
      (∀ u, u ∈ ss ↔ u ∈ fs.samplers ∧ u ∉ vs.samplers) := by
  obtain ⟨su, hsu, hsub, hnd, hmem⟩ := mergeStageLists_spec fs.uniforms
    (vs.uniforms ++ sd.dynamicUniforms)
  obtain ⟨ss, hss, hsub2, hnd2, hmem2⟩ := mergeStageLists_spec fs.samplers vs.samplers
  refine ⟨{ lightDisposed := d.areLightsDisposed
            uniformBuffers := sd.uniformBuffers
            mergedUniforms := mergeStageLists (vs.uniforms ++ sd.dynamicUniforms) fs.uniforms
            mergedSamplers := mergeStageLists vs.samplers fs.samplers
            fallbacks := sd.fallbackNames },
      su, ss, ?_, hsu, hsub, hnd, hmem, hss, hsub2, hnd2, hmem2⟩
  simp [processDefines, h]

/-! ## Theorems for claim C3 -/

/-- Unfolding of resetDualBlocks at fuel zero. -/
theorem resetDualBlocks_zero (g : Graph) (id : Int) (node : Nat) (st : Nat → Int) :
    resetDualBlocks g id 0 node st = st := rfl

/-- Unfolding of resetDualBlocks at positive fuel. -/
theorem resetDualBlocks_succ (g : Graph) (id : Int) (fuel node : Nat) (st : Nat → Int) :
    resetDualBlocks g id (fuel + 1) node st =
      match g.find node with
      | none => st
      | some b =>
          (childIds b).foldl (fun s c => resetDualBlocks g id fuel c s)
            (if b.target = targetVertexAndFragment then
              (fun x => if x = node then id else st x) else st) := rfl

/-- Lookup success yields a block of the graph carrying the looked-up id. -/
theorem find_eq_some_imp (g : Graph) (i : Nat) (b : Block) (h : g.find i = some b) :
    b ∈ g.blocks ∧ b.id = i := by
  unfold Graph.find at h
  exact ⟨List.mem_of_find?_eq_some h, by simpa using List.find?_some h⟩

/-- The dual-block reset only ever writes the given id into the state. -/
theorem resetDualBlocks_writes (g : Graph) (id : Int) :
    ∀ (fuel node : Nat) (st : Nat → Int) (x : Nat),
      resetDualBlocks g id fuel node st x = id ∨
        resetDualBlocks g id fuel node st x = st x := by
  intro fuel
  induction fuel with
  | zero => exact fun node st x => Or.inr rfl
  | succ f ih =>
    have hfold : ∀ (l : List Nat) (st : Nat → Int) (x : Nat),
        (l.foldl (fun s c => resetDualBlocks g id f c s) st) x = id ∨
          (l.foldl (fun s c => resetDualBlocks g id f c s) st) x = st x := by
      intro l
      induction l with
      | nil => exact fun st x => Or.inr rfl
      | cons c tl ihl =>
        intro st x
        rw [List.foldl_cons]
        rcases ihl (resetDualBlocks g id f c st) x with h | h
        · exact Or.inl h
        · rw [h]
          exact ih c st x
    intro node st x
    rw [resetDualBlocks_succ]
    cases hfind : g.find node with
    | none => exact Or.inr rfl
    | some b =>
      simp only
      rcases hfold (childIds b)
          (if b.target = targetVertexAndFragment then
            (fun y => if y = node then id else st y) else st) x with h | h
      · exact Or.inl h
      · rw [h]
        by_cases htv : b.target = targetVertexAndFragment
        · rw [if_pos htv]
          by_cases hx : x = node
          · exact Or.inl (if_pos hx)
          · exact Or.inr (if_neg hx)
        · rw [if_neg htv]
          exact Or.inr rfl

/-- A state entry already holding the id keeps it across the reset walk. -/
theorem resetDualBlocks_preserves (g : Graph) (id : Int) (fuel node : Nat)
    (st : Nat → Int) (x : Nat) (h : st x = id) :
    resetDualBlocks g id fuel node st x = id := by
  rcases resetDualBlocks_writes g id fuel node st x with h1 | h1
  · exact h1
  · rw [h1, h]

/-- A state entry already holding the id keeps it across a fold of reset
walks. -/
theorem foldl_reset_preserves (g : Graph) (id : Int) (fuel : Nat) (bb : Nat) :
    ∀ (l : List Nat) (st : Nat → Int), st bb = id →
      (l.foldl (fun s d => resetDualBlocks g id fuel d s) st) bb = id := by
  intro l
  induction l with
  | nil => exact fun st h => h
  | cons hd tl ih =>
    intro st h
    rw [List.foldl_cons]
    exact ih _ (resetDualBlocks_preserves g id fuel hd st bb h)

/-- A fold of reset walks over a list containing a node whose walk always
writes the id into the entry produces the id in that entry. -/
theorem foldl_reset_sets (g : Graph) (id : Int) (fuel : Nat) (bb : Nat) (c : Nat)
    (hin : ∀ st, resetDualBlocks g id fuel c st bb = id) :
    ∀ (l : List Nat), c ∈ l → ∀ st : Nat → Int,
      (l.foldl (fun s d => resetDualBlocks g id fuel d s) st) bb = id := by
  intro l
  induction l with
  | nil => intro h; cases h
  | cons hd tl ih =>
    intro hmem st
    rw [List.foldl_cons]
    rcases List.mem_cons.1 hmem with rfl | hmem2
    · exact foldl_reset_preserves g id fuel bb tl _ (hin st)
    · exact ih hmem2 _

/-- With enough fuel for the acyclic graph, the reset walk from a node
writes the id into the entry of every reachable block whose target is
VertexAndFragment. -/
theorem resetDualBlocks_sets_reachable (g : Graph) (id : Int) (rk : Nat → Nat)
    (hrk : ∀ a c, walkEdge g a c → rk c < rk a) :
    ∀ (node bb : Nat), Reaches g node bb →
      ∀ blk : Block, g.find bb = some blk → blk.target = targetVertexAndFragment →
        ∀ fuel : Nat, rk node < fuel → ∀ st : Nat → Int,
          resetDualBlocks g id fuel node st bb = id := by
  intro node bb hreach
  induction hreach with
  | refl a =>
    intro blk hfind htarget fuel hfuel st
    obtain ⟨f, rfl⟩ : ∃ f, fuel = f + 1 := ⟨fuel - 1, by omega⟩
    rw [resetDualBlocks_succ, hfind]
    simp only
    apply foldl_reset_preserves
    rw [if_pos htarget]
    simp
  | head hedge hrest ih =>
    rename_i a c bb2
    intro blk hfind htarget fuel hfuel st
    obtain ⟨f, rfl⟩ : ∃ f, fuel = f + 1 := ⟨fuel - 1, by omega⟩
    obtain ⟨b, hbfind, hc⟩ := hedge
    rw [resetDualBlocks_succ, hbfind]
    simp only
    have hrkc : rk c < f := by
      have := hrk a c ⟨b, hbfind, hc⟩
      omega
    exact foldl_reset_sets g id f bb2 c
      (fun st2 => ih blk hfind htarget f hrkc st2) (childIds b) hc _

/-- Claim C3: in the build step run after the vertex stage build and
before the fragment stage build, the buildId entry of every block with
target VertexAndFragment reachable from a fragment root, through ordinary
input links and through teleport entry points, is set to the current
build id minus one. The rank function witnesses acyclicity of the graph
and bounds the fuel. -/
theorem resetDual_sets_reachable_dual_blocks (g : Graph) (buildId : Int)
    (rk : Nat → Nat) (hrk : ∀ b ∈ g.blocks, ∀ c ∈ childIds b, rk c < rk b.id)
    (fuel : Nat) (roots : List Nat) (hfuel : ∀ r ∈ roots, rk r < fuel)
    (st : Nat → Int) (r bb : Nat) (hr : r ∈ roots) (hreach : Reaches g r bb)
    (blk : Block) (hfind : g.find bb = some blk)
    (htarget : blk.target = targetVertexAndFragment) :
    resetDualForFragmentRoots g buildId fuel roots st bb = buildId - 1 := by
  have hrk2 : ∀ a c, walkEdge g a c → rk c < rk a := by
    rintro a c ⟨b, hb, hc⟩
    obtain ⟨hmem, hid⟩ := find_eq_some_imp g a b hb
    have := hrk b hmem c hc
    rwa [hid] at this
  unfold resetDualForFragmentRoots
  exact foldl_reset_sets g (buildId - 1) fuel bb r
    (fun st2 => resetDualBlocks_sets_reachable g (buildId - 1) rk hrk2 r bb hreach
      blk hfind htarget fuel (hfuel r hr) st2) roots hr st

/-- Concrete graph for the claim C3 witness: fragment root 5 reads block
6, a VertexAndFragment dual block. -/
def gC3 : Graph :=
  { blocks :=
      [ { id := 5, target := targetFragment, inputSources := [some 6],
          isTeleportOut := false, entryPoint := none, isUnique := false,
          className := "FragmentOutputBlock" },
        { id := 6, target := targetVertexAndFragment, inputSources := [],
          isTeleportOut := false, entryPoint := none, isUnique := false,
          className := "TextureBlock" } ] }

/-- Rank function for the claim C3 witness graph. -/
def rkC3 : Nat → Nat := fun n => if n = 5 then 1 else 0

/-- Witness for claim C3 at a concrete input: with build id 7, the dual
block 6 reachable from the fragment root 5 gets buildId 6. -/
theorem resetDual_sets_reachable_dual_blocks_witness :
    resetDualForFragmentRoots gC3 7 2 [5] (fun _ => 0) 6 = 6 :=
  resetDual_sets_reachable_dual_blocks gC3 7 rkC3 (by decide) 2 [5] (by decide)
    (fun _ => 0) 5 6 (by decide)
    (Reaches.head ⟨gC3.blocks[0], rfl, by decide⟩ (Reaches.refl 6))
    gC3.blocks[1] rfl rfl

/-! ## Theorems for claim C8 -/

/-- Unfolding of gatherBlocks at fuel zero. -/
theorem gatherBlocks_zero (g : Graph) (node : Nat) (list : List Nat) :
    gatherBlocks g 0 node list = list := rfl

/-- Unfolding of gatherBlocks at positive fuel. -/
theorem gatherBlocks_succ (g : Graph) (fuel node : Nat) (list : List Nat) :
    gatherBlocks g (fuel + 1) node list =
      if node ∈ list then list
      else
        match g.find node with
        | none => list ++ [node]
        | some b =>
            (childIds b).foldl (fun acc c => gatherBlocks g fuel c acc) (list ++ [node]) :=
  rfl

/-- A graph id resolves to a block carrying it. -/
theorem find_some_of_mem_ids (g : Graph) (i : Nat) (h : i ∈ g.ids) :
    ∃ b, g.find i = some b ∧ b.id = i := by
  obtain ⟨blk, hmem, hid⟩ := List.mem_map.1 h
  have hsome : (g.blocks.find? (fun b => b.id == i)).isSome := by
    rw [List.find?_isSome]
    exact ⟨blk, hmem, by simp [hid]⟩
  obtain ⟨b, hb⟩ := Option.isSome_iff_exists.1 hsome
  exact ⟨b, hb, by simpa using List.find?_some hb⟩

/-- The gather walk only appends to its list. -/
theorem gatherBlocks_append (g : Graph) :
    ∀ (fuel node : Nat) (list : List Nat),
      ∃ s, gatherBlocks g fuel node list = list ++ s := by
  intro fuel
  induction fuel with
  | zero => exact fun node list => ⟨[], by simp [gatherBlocks_zero]⟩
  | succ f ih =>
    have hfold : ∀ (l : List Nat) (acc : List Nat),
        ∃ s, l.foldl (fun a c => gatherBlocks g f c a) acc = acc ++ s := by
      intro l
      induction l with
      | nil => exact fun acc => ⟨[], by simp⟩
      | cons c tl ihl =>
        intro acc
        rw [List.foldl_cons]
        obtain ⟨s1, hs1⟩ := ih c acc
        obtain ⟨s2, hs2⟩ := ihl (gatherBlocks g f c acc)
        exact ⟨s1 ++ s2, by rw [hs2, hs1, List.append_assoc]⟩
    intro node list
    rw [gatherBlocks_succ]
    by_cases hmem : node ∈ list
    · exact ⟨[], by simp [hmem]⟩
    · rw [if_neg hmem]
      cases hfind : g.find node with
      | none => exact ⟨[node], rfl⟩
      | some b =>
        simp only
        obtain ⟨s, hs⟩ := hfold (childIds b) (list ++ [node])
        exact ⟨[node] ++ s, by rw [hs, List.append_assoc]⟩

/-- The input list is contained in the gather result. -/
theorem gatherBlocks_subset (g : Graph) (fuel node : Nat) (list : List Nat) :
    list ⊆ gatherBlocks g fuel node list := by
  obtain ⟨s, hs⟩ := gatherBlocks_append g fuel node list
  rw [hs]
  exact List.subset_append_left _ _

/-- The accumulated list is contained in a fold of gather walks. -/
theorem foldl_gather_subset (g : Graph) (fuel : Nat) :
    ∀ (l : List Nat) (acc : List Nat),
      acc ⊆ l.foldl (fun a c => gatherBlocks g fuel c a) acc := by
  intro l
  induction l with
  | nil => exact fun acc => List.Subset.refl acc
  | cons c tl ih =>
    intro acc
    rw [List.foldl_cons]
    exact (gatherBlocks_subset g fuel c acc).trans (ih _)

/-- The walked node itself lands in the gather result. -/
theorem gatherBlocks_mem_self (g : Graph) (fuel node : Nat) (list : List Nat)
    (hf : 1 ≤ fuel) : node ∈ gatherBlocks g fuel node list := by
  obtain ⟨f, rfl⟩ : ∃ f, fuel = f + 1 := ⟨fuel - 1, by omega⟩
  rw [gatherBlocks_succ]
  by_cases hmem : node ∈ list
  · rwa [if_pos hmem]
  · rw [if_neg hmem]
    cases g.find node with
    | none => simp
    | some b =>
      simp only
      exact foldl_gather_subset g f (childIds b) (list ++ [node]) (by simp)

/-- Every member of a fold of gather walks lands in it. -/
theorem foldl_gather_mem (g : Graph) (fuel : Nat) (hf : 1 ≤ fuel) :
    ∀ (l : List Nat) (acc : List Nat) (c : Nat), c ∈ l →
      c ∈ l.foldl (fun a d => gatherBlocks g fuel d a) acc := by
  intro l
  induction l with
  | nil => intro acc c h; cases h
  | cons hd tl ih =>
    intro acc c hmem
    rw [List.foldl_cons]
    rcases List.mem_cons.1 hmem with rfl | hmem2
    · exact foldl_gather_subset g fuel tl _ (gatherBlocks_mem_self g fuel c acc hf)
    · exact ih _ c hmem2

/-- The gather walk keeps the list free of duplicates: an already listed
block is never re-appended. -/
theorem gatherBlocks_nodup (g : Graph) :
    ∀ (fuel node : Nat) (list : List Nat), list.Nodup →
      (gatherBlocks g fuel node list).Nodup := by
  intro fuel
  induction fuel with
  | zero => exact fun node list h => h
  | succ f ih =>
    have hfold : ∀ (l : List Nat) (acc : List Nat), acc.Nodup →
        (l.foldl (fun a c => gatherBlocks g f c a) acc).Nodup := by
      intro l
      induction l with
      | nil => exact fun acc h => h
      | cons c tl ihl =>
        intro acc hacc
        rw [List.foldl_cons]
        exact ihl _ (ih c acc hacc)
    intro node list hnd
    rw [gatherBlocks_succ]
    by_cases hmem : node ∈ list
    · rwa [if_pos hmem]
    · rw [if_neg hmem]
      have hnd1 : (list ++ [node]).Nodup := by
        simp [List.nodup_append, hnd, hmem]
      cases g.find node with
      | none => exact hnd1
      | some b => exact hfold (childIds b) _ hnd1

/-- Everything the gather walk adds is reachable from the walked node. -/
theorem gatherBlocks_sound (g : Graph) :
    ∀ (fuel node : Nat) (list : List Nat) (bb : Nat),
      bb ∈ gatherBlocks g fuel node list → bb ∈ list ∨ Reaches g node bb := by
  intro fuel
  induction fuel with
  | zero => exact fun node list bb h => Or.inl h
  | succ f ih =>
    have hfold : ∀ (l : List Nat) (acc : List Nat) (bb : Nat),
        bb ∈ l.foldl (fun a c => gatherBlocks g f c a) acc →
          bb ∈ acc ∨ ∃ c ∈ l, Reaches g c bb := by
      intro l
      induction l with
      | nil => exact fun acc bb h => Or.inl h
      | cons c tl ihl =>
        intro acc bb hbb
        rw [List.foldl_cons] at hbb
        rcases ihl _ bb hbb with h | ⟨c2, hc2, hr⟩
        · rcases ih c acc bb h with h2 | h2
          · exact Or.inl h2
          · exact Or.inr ⟨c, List.mem_cons_self c tl, h2⟩
        · exact Or.inr ⟨c2, List.mem_cons_of_mem c hc2, hr⟩
    intro node list bb hbb
    rw [gatherBlocks_succ] at hbb
    by_cases hmem : node ∈ list
    · rw [if_pos hmem] at hbb
      exact Or.inl hbb
    · rw [if_neg hmem] at hbb
      cases hfind : g.find node with
      | none =>
        rw [hfind] at hbb
        rcases List.mem_append.1 hbb with h | h
        · exact Or.inl h
        · rw [List.mem_singleton.1 h]
          exact Or.inr (Reaches.refl node)
      | some b =>
        rw [hfind] at hbb
        simp only at hbb
        rcases hfold _ _ bb hbb with h | ⟨c, hc, hr⟩
        · rcases List.mem_append.1 h with h2 | h2
          · exact Or.inl h2
          · rw [List.mem_singleton.1 h2]
            exact Or.inr (Reaches.refl node)
        · exact Or.inr (Reaches.head ⟨b, hfind, hc⟩ hr)

/-- Filter lengths shrink along predicate implication. -/
theorem filter_length_le_of_imp {α : Type} (p q : α → Bool) (h : ∀ a, p a = true → q a = true) :
    ∀ l : List α, (l.filter p).length ≤ (l.filter q).length := by
  intro l
  induction l with
  | nil => simp
  | cons a tl ih =>
    by_cases hp : p a = true
    · have hq := h a hp
      simp only [List.filter_cons, hp, hq, if_true, List.length_cons]
      omega
    · cases hq2 : q a
      · simp only [List.filter_cons, hq2]
        simpa [hp] using ih
      · simp only [List.filter_cons, hq2, if_true, List.length_cons]
        have : (List.filter p tl).length ≤ (List.filter q tl).length := ih
        simp only [List.filter_cons, hp]
        simp only [Bool.false_eq_true, if_false]
        omega

/-- A larger list leaves fewer graph ids missing. -/
theorem missingCount_le (g : Graph) (l1 l2 : List Nat) (h : l1 ⊆ l2) :
    missingCount g l2 ≤ missingCount g l1 := by
  refine filter_length_le_of_imp _ _ (fun a => ?_) g.ids
  simp only [decide_eq_true_eq]
  exact fun h2 hc => h2 (h hc)

/-- Appending a missing graph id strictly shrinks the missing count. -/
theorem missingCount_lt (g : Graph) (list : List Nat) (node : Nat)
    (hids : node ∈ g.ids) (hmem : node ∉ list) :
    missingCount g (list ++ [node]) < missingCount g list := by
  obtain ⟨s, t, hst⟩ := List.append_of_mem hids
  have himp : ∀ a : Nat, decide (a ∉ list ++ [node]) = true → decide (a ∉ list) = true := by
    intro a
    simp only [decide_eq_true_eq]
    exact fun h2 hc => h2 (List.mem_append_left [node] hc)
  have hs := filter_length_le_of_imp _ _ himp s
  have ht := filter_length_le_of_imp _ _ himp t
  unfold missingCount
  rw [hst]
  simp only [List.filter_append, List.length_append, List.filter_cons]
  have h1 : decide (node ∉ list ++ [node]) = false := by simp
  have h2 : decide (node ∉ list) = true := by simpa using hmem
  rw [h1, h2]
  simp only [Bool.false_eq_true, if_false, if_true, List.length_cons]
  omega

/-- The missing count of the empty list is the block count. -/
theorem missingCount_nil (g : Graph) : missingCount g [] = g.blocks.length := by
  unfold missingCount
  simp [Graph.ids]

/-- With fuel exceeding the missing count, one more unit of fuel changes
nothing: the gather walk has terminated. -/
theorem gatherBlocks_stable (g : Graph) (hwf : g.WF) :
    ∀ (fuel node : Nat) (list : List Nat), node ∈ g.ids →
      missingCount g list < fuel →
      gatherBlocks g fuel node list = gatherBlocks g (fuel + 1) node list := by
  intro fuel
  induction fuel with
  | zero => intro node list _ h; exact absurd h (Nat.not_lt_zero _)
  | succ f ih =>
    intro node list hids hmiss
    rw [gatherBlocks_succ, gatherBlocks_succ]
    by_cases hmem : node ∈ list
    · rw [if_pos hmem, if_pos hmem]
    · rw [if_neg hmem, if_neg hmem]
      obtain ⟨b, hfind, hbid⟩ := find_some_of_mem_ids g node hids
      rw [hfind]
      simp only
      have hbmem : b ∈ g.blocks := (find_eq_some_imp g node b hfind).1
      have hchild : ∀ c ∈ childIds b, c ∈ g.ids := hwf.closed b hbmem
      have hmiss1 : missingCount g (list ++ [node]) < f := by
        have := missingCount_lt g list node hids hmem
        omega
      have hfold : ∀ (l : List Nat), (∀ c ∈ l, c ∈ g.ids) →
          ∀ acc : List Nat, missingCount g acc < f →
            l.foldl (fun a c => gatherBlocks g f c a) acc =
              l.foldl (fun a c => gatherBlocks g (f + 1) c a) acc := by
        intro l
        induction l with
        | nil => intro _ acc _; rfl
        | cons c tl ihl =>
          intro hl acc hacc
          rw [List.foldl_cons, List.foldl_cons]
          rw [← ih c acc (hl c (List.mem_cons_self c tl)) hacc]
          refine ihl (fun d hd => hl d (List.mem_cons_of_mem c hd)) _ ?_
          calc missingCount g (gatherBlocks g f c acc)
              ≤ missingCount g acc := missingCount_le g _ _ (gatherBlocks_subset g f c acc)
            _ < f := hacc
      exact hfold (childIds b) hchild (list ++ [node]) hmiss1

/-- Fuel-independence of the gather walk beyond the missing count. -/
theorem gatherBlocks_stable_ge (g : Graph) (hwf : g.WF) (node : Nat)
    (list : List Nat) (hids : node ∈ g.ids) (f1 : Nat)
    (hmiss : missingCount g list < f1) :
    ∀ f2, f1 ≤ f2 → gatherBlocks g f1 node list = gatherBlocks g f2 node list := by
  intro f2 hle
  induction f2, hle using Nat.le_induction with
  | base => rfl
  | succ f2 hle ih =>
    rw [ih]
    exact gatherBlocks_stable g hwf f2 node list hids (by omega)

/-- Each member of the gather result is either inherited from the input
list or has all its walk successors in the result. -/
theorem gatherBlocks_closed (g : Graph) (hwf : g.WF) :
    ∀ (fuel node : Nat) (list : List Nat), node ∈ g.ids →
      missingCount g list < fuel →
      ∀ bb ∈ gatherBlocks g fuel node list, bb ∈ list ∨
        ∀ blk, g.find bb = some blk → ∀ c ∈ childIds blk,
          c ∈ gatherBlocks g fuel node list := by
  intro fuel
  induction fuel with
  | zero => intro node list _ h; exact absurd h (Nat.not_lt_zero _)
  | succ f ih =>
    intro node list hids hmiss
    by_cases hmem : node ∈ list
    · intro bb hbb
      rw [gatherBlocks_succ, if_pos hmem] at hbb
      exact Or.inl hbb
    · obtain ⟨b, hfind, hbid⟩ := find_some_of_mem_ids g node hids
      have hbmem : b ∈ g.blocks := (find_eq_some_imp g node b hfind).1
      have hchild : ∀ c ∈ childIds b, c ∈ g.ids := hwf.closed b hbmem
      have hmiss1 : missingCount g (list ++ [node]) < f := by
        have := missingCount_lt g list node hids hmem
        omega
      have hf1 : 1 ≤ f := by omega
      have hunfold : gatherBlocks g (f + 1) node list =
          (childIds b).foldl (fun a c => gatherBlocks g f c a) (list ++ [node]) := by
        rw [gatherBlocks_succ, if_neg hmem, hfind]
      have hfold : ∀ (l : List Nat), (∀ c ∈ l, c ∈ g.ids) →
          ∀ acc : List Nat, missingCount g acc < f →
            ∀ bb ∈ l.foldl (fun a c => gatherBlocks g f c a) acc, bb ∈ acc ∨
              ∀ blk, g.find bb = some blk → ∀ c2 ∈ childIds blk,
                c2 ∈ l.foldl (fun a c => gatherBlocks g f c a) acc := by
        intro l
        induction l with
        | nil => exact fun _ acc _ bb hbb => Or.inl hbb
        | cons c tl ihl =>
          intro hl acc hacc bb hbb
          rw [List.foldl_cons] at hbb ⊢
          have hacc1 : missingCount g (gatherBlocks g f c acc) < f :=
            lt_of_le_of_lt (missingCount_le g _ _ (gatherBlocks_subset g f c acc)) hacc
          rcases ihl (fun d hd => hl d (List.mem_cons_of_mem c hd)) _ hacc1 bb hbb with
            h | h
          · rcases ih c acc (hl c (List.mem_cons_self c tl)) hacc bb h with h2 | h2
            · exact Or.inl h2
            · refine Or.inr fun blk hblk c2 hc2 => ?_
              exact foldl_gather_subset g f tl _ (h2 blk hblk c2 hc2)
          · exact Or.inr h
      intro bb hbb
      rw [hunfold] at hbb
      rcases hfold (childIds b) hchild (list ++ [node]) hmiss1 bb hbb with h | h
      · rcases List.mem_append.1 h with h2 | h2
        · exact Or.inl h2
        · rw [List.mem_singleton.1 h2]
          refine Or.inr fun blk hblk c hc => ?_
          rw [hfind] at hblk
          cases hblk
          rw [hunfold]
          exact foldl_gather_mem g f hf1 (childIds b) (list ++ [node]) c hc
      · refine Or.inr fun blk hblk c2 hc2 => ?_
        rw [hunfold]
        exact h blk hblk c2 hc2

/-- Everything reachable from a member of the gather result started from
the empty list is in the result. -/
theorem gatherBlocks_reach_closed (g : Graph) (hwf : g.WF) (root : Nat)
    (hroot : root ∈ g.ids) (fuel : Nat) (hfuel : missingCount g [] < fuel) :
    ∀ a bb, Reaches g a bb → a ∈ gatherBlocks g fuel root [] →
      bb ∈ gatherBlocks g fuel root [] := by
  intro a bb hreach
  induction hreach with
  | refl a => exact fun h => h
  | head hedge hrest ih =>
    rename_i x c y
    intro hx
    obtain ⟨b, hbfind, hc⟩ := hedge
    rcases gatherBlocks_closed g hwf fuel root [] hroot hfuel x hx with h | h
    · cases h
    · exact ih (h b hbfind c hc)

/-- Claim C8: for every wellformed graph, including graphs where a
teleport-out entry point feeds a subgraph also reachable through ordinary
links, the gather walk started from a root lists exactly the blocks
reachable from that root, lists each exactly once, and terminates: its
result is the same for every sufficient fuel, because an already listed
block is never revisited. -/
theorem gatherBlocks_exactly_reachable (g : Graph) (hwf : g.WF)
    (root : Nat) (hroot : root ∈ g.ids) (fuel : Nat)
    (hfuel : g.blocks.length < fuel) :
    (gatherBlocks g fuel root []).Nodup ∧
      (∀ bb, bb ∈ gatherBlocks g fuel root [] ↔ Reaches g root bb) ∧
      (∀ fuel2, g.blocks.length < fuel2 →
        gatherBlocks g fuel2 root [] = gatherBlocks g fuel root []) := by
  have hmiss : missingCount g [] < fuel := by rw [missingCount_nil]; exact hfuel
  refine ⟨gatherBlocks_nodup g fuel root [] List.nodup_nil, fun bb => ⟨?_, ?_⟩, ?_⟩
  · intro hbb
    rcases gatherBlocks_sound g fuel root [] bb hbb with h | h
    · cases h
    · exact h
  · intro hreach
    refine gatherBlocks_reach_closed g hwf root hroot fuel hmiss root bb hreach ?_
    exact gatherBlocks_mem_self g fuel root [] (by omega)
  · intro fuel2 hfuel2
    have hmiss2 : missingCount g [] < fuel2 := by rw [missingCount_nil]; exact hfuel2
    rcases Nat.le_total fuel fuel2 with hle | hle
    · exact (gatherBlocks_stable_ge g hwf root [] hroot fuel hmiss fuel2 hle).symm
    · exact gatherBlocks_stable_ge g hwf root [] hroot fuel2 hmiss2 fuel hle

/-- Concrete graph for the claim C8 witness, the shared-subgraph shape of
Scenario D: root 0 reads teleport-out 1 (paired with entry point 3) and
block 2, which also reads block 3. -/
def gC8 : Graph :=
  { blocks :=
      [ { id := 0, target := targetFragment, inputSources := [some 1, some 2],
          isTeleportOut := false, entryPoint := none, isUnique := false,
          className := "FragmentOutputBlock" },
        { id := 1, target := targetNeutral, inputSources := [],
          isTeleportOut := true, entryPoint := some 3, isUnique := false,
          className := "TeleportOutBlock" },
        { id := 2, target := targetNeutral, inputSources := [some 3],
          isTeleportOut := false, entryPoint := none, isUnique := false,
          className := "AddBlock" },
        { id := 3, target := targetNeutral, inputSources := [],
          isTeleportOut := false, entryPoint := none, isUnique := false,
          className := "InputBlock" } ] }

/-- Witness for claim C8 at the Scenario D graph. -/
theorem gatherBlocks_exactly_reachable_witness :
    (gatherBlocks gC8 5 0 []).Nodup ∧
      (∀ bb, bb ∈ gatherBlocks gC8 5 0 [] ↔ Reaches gC8 0 bb) ∧
      (∀ fuel2, gC8.blocks.length < fuel2 →
        gatherBlocks gC8 fuel2 0 [] = gatherBlocks gC8 5 0 []) :=
  gatherBlocks_exactly_reachable gC8 ⟨by decide, by decide⟩ 0 (by decide) 5 (by decide)

/-! ## Theorems for claim C7 -/

/-- Unfolding of initBlock at fuel zero. -/
theorem initBlock_zero (g : Graph) (node : Nat) (att : List Nat) :
    initBlock g 0 node att = .ok att := rfl

/-- Unfolding of initBlock at positive fuel. -/
theorem initBlock_succ (g : Graph) (fuel node : Nat) (att : List Nat) :
    initBlock g (fuel + 1) node att =
      match g.find node with
      | none => .ok att
      | some b =>
          (if node ∈ att then Except.ok att
           else if b.isUnique && hasAttachedSameClass g att b.className then
             Except.error (uniqueErrorMsg b.className)
           else Except.ok (att ++ [node])) >>= fun attached1 =>
            (childIds b).foldlM (fun acc c => initBlock g fuel c acc) attached1 := rfl

/-- Successful bind in the Except monad splits into two successes. -/
theorem except_bind_ok {α β : Type} (x : Except String α) (k : α → Except String β)
    (r : β) (h : x >>= k = .ok r) : ∃ m, x = .ok m ∧ k m = .ok r := by
  cases x with
  | error e => simp [Bind.bind, Except.bind] at h
  | ok a => exact ⟨a, rfl, by simpa [Bind.bind, Except.bind] using h⟩

/-- Case analysis of the attach step of initBlock on success. -/
theorem initBlock_attach_cases (g : Graph) (node : Nat) (att : List Nat) (b : Block)
    (attached1 : List Nat)
    (h : (if node ∈ att then Except.ok att
          else if b.isUnique && hasAttachedSameClass g att b.className then
            Except.error (uniqueErrorMsg b.className)
          else Except.ok (att ++ [node])) = Except.ok attached1) :
    (node ∈ att ∧ attached1 = att) ∨
      (node ∉ att ∧ (b.isUnique && hasAttachedSameClass g att b.className) = false ∧
        attached1 = att ++ [node]) := by
  by_cases hmem : node ∈ att
  · rw [if_pos hmem] at h
    cases h
    exact Or.inl ⟨hmem, rfl⟩
  · rw [if_neg hmem] at h
    cases hcond : b.isUnique && hasAttachedSameClass g att b.className with
    | true => rw [hcond] at h; simp at h
    | false =>
      rw [hcond] at h
      simp only [Bool.false_eq_true, if_false] at h
      cases h
      exact Or.inr ⟨hmem, rfl, rfl⟩

/-- A successful initBlock walk only grows the attached list. -/
theorem initBlock_mono (g : Graph) :
    ∀ (fuel node : Nat) (att res : List Nat),
      initBlock g fuel node att = .ok res → att ⊆ res := by
  intro fuel
  induction fuel with
  | zero =>
    intro node att res h
    rw [initBlock_zero] at h
    cases h
    exact List.Subset.refl att
  | succ f ih =>
    have hfold : ∀ (l : List Nat) (acc res : List Nat),
        l.foldlM (fun a c => initBlock g f c a) acc = .ok res → acc ⊆ res := by
      intro l
      induction l with
      | nil =>
        intro acc res h
        rw [List.foldlM_nil] at h
        cases h
        exact List.Subset.refl acc
      | cons c tl ihl =>
        intro acc res h
        rw [List.foldlM_cons] at h
        obtain ⟨m, hm, hrest⟩ := except_bind_ok _ _ _ h
        exact (ih c acc m hm).trans (ihl m res hrest)
    intro node att res h
    rw [initBlock_succ] at h
    cases hfind : g.find node with
    | none =>
      rw [hfind] at h
      cases h
      exact List.Subset.refl att
    | some b =>
      rw [hfind] at h
      simp only at h
      obtain ⟨attached1, hm, hrest⟩ := except_bind_ok _ _ _ h
      rcases initBlock_attach_cases g node att b attached1 hm with
        ⟨_, rfl⟩ | ⟨_, _, rfl⟩
      · exact hfold _ _ _ hrest
      · exact (List.subset_append_left att [node]).trans (hfold _ _ _ hrest)

/-- The accumulated list only grows across a successful initBlock fold. -/
theorem foldInit_mono (g : Graph) (fuel : Nat) :
    ∀ (l : List Nat) (acc res : List Nat),
      l.foldlM (fun a c => initBlock g fuel c a) acc = .ok res → acc ⊆ res := by
  intro l
  induction l with
  | nil =>
    intro acc res h
    rw [List.foldlM_nil] at h
    cases h
    exact List.Subset.refl acc
  | cons c tl ihl =>
    intro acc res h
    rw [List.foldlM_cons] at h
    obtain ⟨m, hm, hrest⟩ := except_bind_ok _ _ _ h
    exact (initBlock_mono g fuel c acc m hm).trans (ihl m res hrest)

/-- A successful fold over a list containing c passes some state through
an initBlock walk of c whose result is kept. -/
theorem foldInit_ok_step (g : Graph) (fuel : Nat) (c : Nat) :
    ∀ (l : List Nat) (acc res : List Nat),
      l.foldlM (fun a d => initBlock g fuel d a) acc = .ok res → c ∈ l →
        ∃ m1 m2, initBlock g fuel c m1 = .ok m2 ∧ m2 ⊆ res := by
  intro l
  induction l with
  | nil => intro acc res _ hc; cases hc
  | cons hd tl ihl =>
    intro acc res h hc
    rw [List.foldlM_cons] at h
    obtain ⟨m, hm, hrest⟩ := except_bind_ok _ _ _ h
    rcases List.mem_cons.1 hc with rfl | hc2
    · exact ⟨acc, m, hm, foldInit_mono g fuel tl m res hrest⟩
    · exact ihl m res hrest hc2

/-- With enough fuel for the acyclic graph, a successful initBlock walk
attaches every reachable block. -/
theorem initBlock_complete (g : Graph) (rk : Nat → Nat)
    (hrk : ∀ a c, walkEdge g a c → rk c < rk a) :
    ∀ (node bb : Nat), Reaches g node bb → (∃ blk2, g.find bb = some blk2) →
      ∀ fuel : Nat, rk node < fuel → ∀ att res : List Nat,
        initBlock g fuel node att = .ok res → bb ∈ res := by
  intro node bb hreach
  induction hreach with
  | refl a =>
    rintro ⟨blk2, hfind⟩ fuel hfuel att res h
    obtain ⟨f, rfl⟩ : ∃ f, fuel = f + 1 := ⟨fuel - 1, by omega⟩
    rw [initBlock_succ, hfind] at h
    simp only at h
    obtain ⟨attached1, hm, hrest⟩ := except_bind_ok _ _ _ h
    have hsub := foldInit_mono g f _ _ _ hrest
    rcases initBlock_attach_cases g a att blk2 attached1 hm with
      ⟨hmem, rfl⟩ | ⟨_, _, rfl⟩
    · exact hsub hmem
    · exact hsub (by simp)
  | head hedge hrest2 ih =>
    rename_i x c y
    intro hbbfind fuel hfuel att res h
    obtain ⟨f, rfl⟩ : ∃ f, fuel = f + 1 := ⟨fuel - 1, by omega⟩
    obtain ⟨b, hbfind, hc⟩ := hedge
    rw [initBlock_succ, hbfind] at h
    simp only at h
    obtain ⟨attached1, hm, hfold⟩ := except_bind_ok _ _ _ h
    obtain ⟨m1, m2, hstep, hsub⟩ := foldInit_ok_step g f c _ attached1 res hfold hc
    have hrkc : rk c < f := by
      have := hrk x c ⟨b, hbfind, hc⟩
      omega
    exact hsub (ih hbbfind f hrkc m1 m2 hstep)

/-- Attaching a node that passed the uniqueness scan preserves the
uniqueness invariant. -/
theorem uniqueInv_attach (g : Graph) (att : List Nat) (node : Nat) (b : Block)
    (hnode : g.find node = some b) (hinv : UniqueInv g att)
    (hcheck : (b.isUnique && hasAttachedSameClass g att b.className) = false) :
    UniqueInv g (att ++ [node]) := by
  intro x hx y hy hxy bx by2 hfx hfy hux huy
  rcases List.mem_append.1 hx with hx2 | hx2 <;>
    rcases List.mem_append.1 hy with hy2 | hy2
  · exact hinv x hx2 y hy2 hxy bx by2 hfx hfy hux huy
  · rw [List.mem_singleton.1 hy2] at hfy
    rw [hnode] at hfy
    cases hfy
    have hbu : b.isUnique = true := huy
    have hscan : hasAttachedSameClass g att b.className = false := by
      cases hscan2 : hasAttachedSameClass g att b.className
      · rfl
      · rw [hbu, hscan2] at hcheck
        simp at hcheck
    intro hcls
    have : hasAttachedSameClass g att b.className = true := by
      unfold hasAttachedSameClass
      rw [List.any_eq_true]
      exact ⟨x, hx2, by rw [hfx]; simpa using hcls⟩
    rw [this] at hscan
    cases hscan
  · rw [List.mem_singleton.1 hx2] at hfx
    rw [hnode] at hfx
    cases hfx
    have hbu : b.isUnique = true := hux
    have hscan : hasAttachedSameClass g att b.className = false := by
      cases hscan2 : hasAttachedSameClass g att b.className
      · rfl
      · rw [hbu, hscan2] at hcheck
        simp at hcheck
    intro hcls
    have : hasAttachedSameClass g att b.className = true := by
      unfold hasAttachedSameClass
      rw [List.any_eq_true]
      exact ⟨y, hy2, by rw [hfy]; simpa using hcls.symm⟩
    rw [this] at hscan
    cases hscan
  · rw [List.mem_singleton.1 hx2, List.mem_singleton.1 hy2] at hxy
    exact absurd rfl hxy

/-- A successful initBlock walk preserves the uniqueness invariant. -/
theorem initBlock_inv (g : Graph) :
    ∀ (fuel node : Nat) (att res : List Nat),
      initBlock g fuel node att = .ok res → UniqueInv g att → UniqueInv g res := by
  intro fuel
  induction fuel with
  | zero =>
    intro node att res h hinv
    rw [initBlock_zero] at h
    cases h
    exact hinv
  | succ f ih =>
    have hfold : ∀ (l : List Nat) (acc res : List Nat),
        l.foldlM (fun a c => initBlock g f c a) acc = .ok res →
          UniqueInv g acc → UniqueInv g res := by
      intro l
      induction l with
      | nil =>
        intro acc res h hinv
        rw [List.foldlM_nil] at h
        cases h
        exact hinv
      | cons c tl ihl =>
        intro acc res h hinv
        rw [List.foldlM_cons] at h
        obtain ⟨m, hm, hrest⟩ := except_bind_ok _ _ _ h
        exact ihl m res hrest (ih c acc m hm hinv)
    intro node att res h hinv
    rw [initBlock_succ] at h
    cases hfind : g.find node with
    | none =>
      rw [hfind] at h
      cases h
      exact hinv
    | some b =>
      rw [hfind] at h
      simp only at h
      obtain ⟨attached1, hm, hrest⟩ := except_bind_ok _ _ _ h
      rcases initBlock_attach_cases g node att b attached1 hm with
        ⟨_, rfl⟩ | ⟨_, hcheck, rfl⟩
      · exact hfold _ _ _ hrest hinv
      · exact hfold _ _ _ hrest (uniqueInv_attach g att node b hfind hinv hcheck)

/-- A successful initBlock fold preserves the uniqueness invariant. -/
theorem foldInit_inv (g : Graph) (fuel : Nat) :
    ∀ (l : List Nat) (acc res : List Nat),
      l.foldlM (fun a c => initBlock g fuel c a) acc = .ok res →
        UniqueInv g acc → UniqueInv g res := by
  intro l
  induction l with
  | nil =>
    intro acc res h hinv
    rw [List.foldlM_nil] at h
    cases h
    exact hinv
  | cons c tl ihl =>
    intro acc res h hinv
    rw [List.foldlM_cons] at h
    obtain ⟨m, hm, hrest⟩ := except_bind_ok _ _ _ h
    exact ihl m res hrest (initBlock_inv g fuel c acc m hm hinv)

/-- Claim C7, counterexample: the two unique blocks 1 and 2 of the same
class are both reachable from the fragment root 0, yet a build pass in
which both are already attached (the state deserialization leaves the
material in) completes its block initialization without raising the
uniqueness error, because the check only runs when a block is newly
attached. -/
theorem initPass_preattached_unique_counterexample :
    (gC7.find 1 = some gC7.blocks[1] ∧ gC7.find 2 = some gC7.blocks[2] ∧
        gC7.blocks[1].isUnique = true ∧ gC7.blocks[2].isUnique = true ∧
        gC7.blocks[1].className = gC7.blocks[2].className) ∧
      Reaches gC7 0 1 ∧ Reaches gC7 0 2 ∧
      isError (initPass gC7 5 [] [0] [1, 2]) = false :=
  ⟨⟨rfl, rfl, rfl, rfl, rfl⟩,
    Reaches.head ⟨gC7.blocks[0], rfl, by decide⟩ (Reaches.refl 1),
    Reaches.head ⟨gC7.blocks[0], rfl, by decide⟩ (Reaches.refl 2),
    by decide⟩

/-- Claim C7, amended: on a fresh build pass, starting from an empty
attached block list, the block initialization raises the uniqueness error
and aborts the pass whenever two distinct unique blocks of the same class
are both reachable from the output nodes; blocks already attached before
the pass are not re-checked. -/
theorem initPass_fresh_unique_conflict_errors (g : Graph) (rk : Nat → Nat)
    (hrk : ∀ b ∈ g.blocks, ∀ c ∈ childIds b, rk c < rk b.id)
    (fuel : Nat) (vroots froots : List Nat)
    (hfuel : ∀ r ∈ vroots ++ froots, rk r < fuel)
    (b1 b2 : Nat) (blk1 blk2 : Block)
    (hf1 : g.find b1 = some blk1) (hf2 : g.find b2 = some blk2)
    (hu1 : blk1.isUnique = true) (hu2 : blk2.isUnique = true)
    (hcls : blk1.className = blk2.className) (hne : b1 ≠ b2)
    (hr1 : ∃ r ∈ vroots ++ froots, Reaches g r b1)
    (hr2 : ∃ r ∈ vroots ++ froots, Reaches g r b2) :
    isError (initPass g fuel vroots froots []) = true := by
  have hrk2 : ∀ a c, walkEdge g a c → rk c < rk a := by
    rintro a c ⟨b, hb, hc⟩
    obtain ⟨hmem, hid⟩ := find_eq_some_imp g a b hb
    have := hrk b hmem c hc
    rwa [hid] at this
  cases hres : initPass g fuel vroots froots [] with
  | error e => rfl
  | ok res =>
    exfalso
    unfold initPass at hres
    obtain ⟨a1, ha1, ha2⟩ := except_bind_ok _ _ _ hres
    have hmember : ∀ bb : Nat, (∃ blk, g.find bb = some blk) →
        (∃ r ∈ vroots ++ froots, Reaches g r bb) → bb ∈ res := by
      rintro bb hbbfind ⟨r, hrmem, hreach⟩
      rcases List.mem_append.1 hrmem with hrv | hrf
      · obtain ⟨m1, m2, hstep, hsub⟩ := foldInit_ok_step g fuel r vroots [] a1 ha1 hrv
        have hbm : bb ∈ m2 := initBlock_complete g rk hrk2 r bb hreach hbbfind fuel
          (hfuel r hrmem) m1 m2 hstep
        exact foldInit_mono g fuel froots a1 res ha2 (hsub hbm)
      · obtain ⟨m1, m2, hstep, hsub⟩ := foldInit_ok_step g fuel r froots a1 res ha2 hrf
        have hbm : bb ∈ m2 := initBlock_complete g rk hrk2 r bb hreach hbbfind fuel
          (hfuel r hrmem) m1 m2 hstep
        exact hsub hbm
    have hinv : UniqueInv g res := by
      have hinv0 : UniqueInv g [] := by
        intro x hx
        cases hx
      exact foldInit_inv g fuel froots a1 res ha2
        (foldInit_inv g fuel vroots [] a1 ha1 hinv0)
    exact hinv b1 (hmember b1 ⟨blk1, hf1⟩ hr1) b2 (hmember b2 ⟨blk2, hf2⟩ hr2) hne
      blk1 blk2 hf1 hf2 hu1 hu2 hcls

/-- Witness for the amended claim C7: a fresh pass on the graph with two
reachable unique blocks of the same class errors. -/
theorem initPass_fresh_unique_conflict_errors_witness :
    isError (initPass gC7 5 [] [0] []) = true :=
  initPass_fresh_unique_conflict_errors gC7 rkC7 (by decide) 5 [] [0] (by decide)
    1 2 gC7.blocks[1] gC7.blocks[2] rfl rfl rfl rfl rfl (by decide)
    ⟨0, by decide, Reaches.head ⟨gC7.blocks[0], rfl, by decide⟩ (Reaches.refl 1)⟩
    ⟨0, by decide, Reaches.head ⟨gC7.blocks[0], rfl, by decide⟩ (Reaches.refl 2)⟩

/-- Witness for claim C6 at a concrete input. -/
theorem processDefines_merge_characterization_witness :
    ∃ pr su ss,
      (processDefines sdC4 (markAsAttributesDirty cleanDefines) vsC4 fsC4).1 = some pr ∧
      pr.mergedUniforms = (vsC4.uniforms ++ sdC4.dynamicUniforms) ++ su ∧
      su.Sublist fsC4.uniforms ∧ su.Nodup ∧
      (∀ u, u ∈ su ↔ u ∈ fsC4.uniforms ∧ u ∉ vsC4.uniforms ++ sdC4.dynamicUniforms) ∧
      pr.mergedSamplers = vsC4.samplers ++ ss ∧
      ss.Sublist fsC4.samplers ∧ ss.Nodup ∧
      (∀ u, u ∈ ss ↔ u ∈ fsC4.samplers ∧ u ∉ vsC4.samplers) :=
  processDefines_merge_characterization sdC4 (markAsAttributesDirty cleanDefines)
    vsC4 fsC4 (by decide)

/-! ## Theorems for claim C9 -/

/-- Claim C9, counterexample: block 1 of the concrete graph has a
declared but unconnected input point and feeds the fragment root 2; the
connection restoration starts only from blocks with no declared inputs,
so deserializing the serialized material reconstructs no edge at all
while the source graph has one: the round trip does not preserve the
edges. -/
theorem roundTrip_drops_unrooted_edge_counterexample :
    (parseSerializedMaterial factoryC9 (serializeMaterial gC9 5) 5).edges = [] ∧
      gC9.edges =
        [{ toBlock := 2, inputName := "in", fromBlock := 1, outputName := "out" }] ∧
      (parseSerializedMaterial factoryC9 (serializeMaterial gC9 5) 5).edges ≠
        gC9.edges := by
  refine ⟨by decide, rfl, by decide⟩

/-- Members mapping to equal values under a map with no duplicate image
are equal. -/
theorem mem_eq_of_map_nodup {α β : Type} (f : α → β) :
    ∀ l : List α, (l.map f).Nodup →
      ∀ a ∈ l, ∀ b ∈ l, f a = f b → a = b := by
  intro l
  induction l with
  | nil => intro _ a ha; cases ha
  | cons x tl ih =>
    intro hnd a ha b hb hf
    rw [List.map_cons, List.nodup_cons] at hnd
    rcases List.mem_cons.1 ha with rfl | ha2 <;> rcases List.mem_cons.1 hb with rfl | hb2
    · rfl
    · exact absurd (hf ▸ List.mem_map_of_mem f hb2) hnd.1
    · exact absurd (hf ▸ List.mem_map_of_mem f ha2) hnd.1
    · exact ih hnd.2 a ha2 b hb2 hf

/-- A successful lookup by id yields a member carrying the id. -/
theorem findById_some (l : List PBlock) (i : Nat) (b : PBlock)
    (h : findById l i = some b) : b ∈ l ∧ b.id = i := by
  unfold findById at h
  exact ⟨List.mem_of_find?_eq_some h, by simpa using List.find?_some h⟩

/-- With distinct ids, lookup by a member id finds that member. -/
theorem findById_self (l : List PBlock) (hnd : (l.map PBlock.id).Nodup)
    (b : PBlock) (hb : b ∈ l) : findById l b.id = some b := by
  have hsome : (l.find? fun b2 => b2.id == b.id).isSome := by
    rw [List.find?_isSome]
    exact ⟨b, hb, by simp⟩
  obtain ⟨b2, hb2⟩ := Option.isSome_iff_exists.1 hsome
  have hb2f : findById l b.id = some b2 := hb2
  obtain ⟨hmem2, hid2⟩ := findById_some l b.id b2 hb2f
  rw [hb2f, mem_eq_of_map_nodup PBlock.id l hnd b2 hmem2 b hb hid2]

/-- The walk view keeps the block ids. -/
theorem toWalkGraph_ids (G : PGraph) : (toWalkGraph G).ids = G.blocks.map PBlock.id := by
  simp [toWalkGraph, Graph.ids, List.map_map]

/-- A connection producer is an edge of the list with the looked-up key. -/
theorem inputSource_some (edges : List PEdge) (t : Nat) (n : String) (e : PEdge)
    (h : inputSource edges t n = some e) :
    e ∈ edges ∧ e.toBlock = t ∧ e.inputName = n := by
  unfold inputSource at h
  have hp := List.find?_some h
  simp only [Bool.and_eq_true, beq_iff_eq] at hp
  exact ⟨List.mem_of_find?_eq_some h, hp.1, hp.2⟩

/-- An edge of the list makes its key lookup succeed. -/
theorem inputSource_isSome_of_mem (edges : List PEdge) (e : PEdge) (he : e ∈ edges) :
    ∃ e2, inputSource edges e.toBlock e.inputName = some e2 := by
  have hsome : (inputSource edges e.toBlock e.inputName).isSome := by
    unfold inputSource
    rw [List.find?_isSome]
    exact ⟨e, he, by simp⟩
  exact Option.isSome_iff_exists.1 hsome

/-- An empty lookup means no edge of the list carries the key. -/
theorem inputSource_none_iff (edges : List PEdge) (t : Nat) (n : String) :
    inputSource edges t n = none ↔
      ∀ e ∈ edges, ¬(e.toBlock = t ∧ e.inputName = n) := by
  unfold inputSource
  rw [List.find?_eq_none]
  constructor
  · intro h e he hcon
    have := h e he
    simp [hcon.1, hcon.2] at this
  · intro h e he
    have := h e he
    simp only [Bool.and_eq_true, beq_iff_eq]
    exact fun hcon => this ⟨hcon.1, hcon.2⟩

/-- Two graph edges sharing the input key are the same edge. -/
theorem edge_key_unique (G : PGraph) (hwf : G.WF) (e1 e2 : PEdge)
    (h1 : e1 ∈ G.edges) (h2 : e2 ∈ G.edges)
    (ht : e1.toBlock = e2.toBlock) (hn : e1.inputName = e2.inputName) : e1 = e2 :=
  mem_eq_of_map_nodup (fun e => (e.toBlock, e.inputName)) G.edges hwf.edgeKeysNodup
    e1 h1 e2 h2 (by simp [ht, hn])

/-- Reachability in a wellformed walk graph stays inside its ids. -/
theorem reaches_mem_ids (g : Graph) (hwf : g.WF) :
    ∀ a bb : Nat, Reaches g a bb → a ∈ g.ids → bb ∈ g.ids := by
  intro a bb hreach
  induction hreach with
  | refl a => exact fun h => h
  | head hedge hrest ih =>
    rename_i x c y
    intro hx
    obtain ⟨b, hbfind, hc⟩ := hedge
    obtain ⟨hbmem, hbid⟩ := find_eq_some_imp g x b hbfind
    exact ih (hwf.closed b hbmem c hc)

/-- A child of the walk view of a block is the producer of one of its
connected inputs. -/
theorem childIds_toWalkGraph (G : PGraph) (b0 : PBlock) (c : Nat)
    (hc : c ∈ childIds
      { id := b0.id, target := b0.target
        inputSources := b0.inputNames.map fun n =>
          (inputSource G.edges b0.id n).map PEdge.fromBlock
        isTeleportOut := false, entryPoint := none, isUnique := false
        className := b0.customType }) :
    ∃ e ∈ G.edges, e.fromBlock = c ∧ e.toBlock = b0.id := by
  simp only [childIds, Bool.false_eq_true, if_false, List.append_nil, List.mem_filter,
    List.mem_filterMap, List.mem_map, id_eq] at hc
  obtain ⟨⟨o, ⟨n, hn, ho⟩, hoc⟩, hne⟩ := hc
  subst hoc
  rw [Option.map_eq_some'] at ho
  obtain ⟨e, he, rfl⟩ := ho
  obtain ⟨hemem, hto, hin⟩ := inputSource_some G.edges b0.id n e he
  exact ⟨e, hemem, rfl, hto⟩

/-- The walk view of a wellformed port graph is a wellformed walk graph. -/
theorem toWalkGraph_wf (G : PGraph) (hwf : G.WF) : (toWalkGraph G).WF := by
  refine ⟨?_, ?_⟩
  · rw [toWalkGraph_ids]
    exact hwf.nodupIds
  · intro b hb c hc
    simp only [toWalkGraph, List.mem_map] at hb
    obtain ⟨b0, hb0, rfl⟩ := hb
    obtain ⟨e, hemem, rfl, hto⟩ := childIds_toWalkGraph G b0 c hc
    obtain ⟨bf, hbf, hbfid, _⟩ := hwf.edgeFrom e hemem
    rw [toWalkGraph_ids, ← hbfid]
    exact List.mem_map_of_mem PBlock.id hbf

/-- The gathered ids of the serialize walk are graph ids. -/
theorem gatheredBlocks_subset_ids (G : PGraph) (hwf : G.WF) (fuel : Nat) :
    ∀ i ∈ gatheredBlocks G fuel, i ∈ G.blocks.map PBlock.id := by
  have hwwf : (toWalkGraph G).WF := toWalkGraph_wf G hwf
  have hroots : ∀ (roots : List Nat),
      (∀ r ∈ roots, r ∈ G.blocks.map PBlock.id) →
      ∀ (acc : List Nat), (∀ i ∈ acc, i ∈ G.blocks.map PBlock.id) →
      ∀ i ∈ roots.foldl (fun a r => gatherBlocks (toWalkGraph G) fuel r a) acc,
        i ∈ G.blocks.map PBlock.id := by
    intro roots
    induction roots with
    | nil => exact fun _ acc hacc i hi => hacc i hi
    | cons r tl ih =>
      intro hr acc hacc i hi
      rw [List.foldl_cons] at hi
      refine ih (fun x hx => hr x (List.mem_cons_of_mem r hx)) _ ?_ i hi
      intro j hj
      rcases gatherBlocks_sound (toWalkGraph G) fuel r acc j hj with h | h
      · exact hacc j h
      · have hrids : r ∈ (toWalkGraph G).ids := by
          rw [toWalkGraph_ids]
          exact hr r (List.mem_cons_self r tl)
        have := reaches_mem_ids (toWalkGraph G) hwwf r j h hrids
        rwa [toWalkGraph_ids] at this
  intro i hi
  unfold gatheredBlocks at hi
  refine hroots G.fragmentOutputNodes ?_ _ ?_ i hi
  · intro r hr
    obtain ⟨b, hb, hbid, _⟩ := hwf.fragmentRootsTarget r hr
    rw [← hbid]
    exact List.mem_map_of_mem PBlock.id hb
  · refine hroots G.vertexOutputNodes ?_ [] (fun j hj => absurd hj (List.not_mem_nil j))
    intro r hr
    obtain ⟨b, hb, hbid, _⟩ := hwf.vertexRootsTarget r hr
    rw [← hbid]
    exact List.mem_map_of_mem PBlock.id hb

/-- The gathered ids of the serialize walk carry no duplicates. -/
theorem gatheredBlocks_nodup (G : PGraph) (fuel : Nat) :
    (gatheredBlocks G fuel).Nodup := by
  have hroots : ∀ (roots : List Nat) (acc : List Nat), acc.Nodup →
      (roots.foldl (fun a r => gatherBlocks (toWalkGraph G) fuel r a) acc).Nodup := by
    intro roots
    induction roots with
    | nil => exact fun acc h => h
    | cons r tl ih =>
      intro acc hacc
      rw [List.foldl_cons]
      exact ih _ (gatherBlocks_nodup (toWalkGraph G) fuel r acc hacc)
  exact hroots _ _ (hroots _ [] List.nodup_nil)

/-- A graph id resolves by lookup to a block carrying it. -/
theorem findById_some_of_mem_ids (l : List PBlock) (i : Nat)
    (h : i ∈ l.map PBlock.id) : ∃ b, findById l i = some b ∧ b.id = i := by
  obtain ⟨b0, hb0, hid⟩ := List.mem_map.1 h
  have hsome : (l.find? fun b2 => b2.id == i).isSome := by
    rw [List.find?_isSome]
    exact ⟨b0, hb0, by simp [hid]⟩
  obtain ⟨b2, hb2⟩ := Option.isSome_iff_exists.1 hsome
  have hb2f : findById l i = some b2 := hb2
  exact ⟨b2, hb2f, (findById_some l i b2 hb2f).2⟩

/-- The serialized block list consists of the serializations of exactly
the graph blocks. -/
theorem serializeMaterial_blocks_mem (G : PGraph) (hwf : G.WF) (fuel : Nat)
    (sb : SBlock) :
    sb ∈ (serializeMaterial G fuel).blocks ↔ ∃ b0 ∈ G.blocks, sb = serializeBlock G b0 := by
  unfold serializeMaterial
  simp only [List.mem_append, List.mem_filterMap, List.mem_map, List.mem_filter]
  constructor
  · rintro (⟨i, hi, h2⟩ | ⟨b0, ⟨hb0, _⟩, rfl⟩)
    · rw [Option.map_eq_some'] at h2
      obtain ⟨b0, hf, rfl⟩ := h2
      obtain ⟨hmem, _⟩ := findById_some G.blocks i b0 hf
      exact ⟨b0, hmem, rfl⟩
    · exact ⟨b0, hb0, rfl⟩
  · rintro ⟨b0, hb0, rfl⟩
    by_cases hg : b0.id ∈ gatheredBlocks G fuel
    · refine Or.inl ⟨b0.id, hg, ?_⟩
      rw [show G.findBlock b0.id = some b0 from findById_self G.blocks hwf.nodupIds b0 hb0]
      rfl
    · exact Or.inr ⟨b0, ⟨hb0, by simpa using hg⟩, rfl⟩

/-- The ids of the filterMap over resolvable gathered ids are those ids. -/
theorem gathered_serialized_ids (G : PGraph) :
    ∀ l : List Nat, (∀ i ∈ l, i ∈ G.blocks.map PBlock.id) →
      ((l.filterMap fun i => (G.findBlock i).map (serializeBlock G)).map SBlock.id) = l := by
  intro l
  induction l with
  | nil => intro _; rfl
  | cons i tl ih =>
    intro hl
    obtain ⟨b, hb, hbid⟩ := findById_some_of_mem_ids G.blocks i (hl i (List.mem_cons_self i tl))
    rw [List.filterMap_cons]
    rw [show G.findBlock i = some b from hb]
    simp only [Option.map_some', List.map_cons]
    rw [ih fun x hx => hl x (List.mem_cons_of_mem i hx)]
    rw [show (serializeBlock G b).id = i from hbid]

/-- The serialized block ids carry no duplicates. -/
theorem serializeMaterial_ids_nodup (G : PGraph) (hwf : G.WF) (fuel : Nat) :
    ((serializeMaterial G fuel).blocks.map SBlock.id).Nodup := by
  unfold serializeMaterial
  simp only [List.map_append, List.map_map]
  rw [List.nodup_append]
  have hpart1 := gathered_serialized_ids G (gatheredBlocks G fuel)
    (gatheredBlocks_subset_ids G hwf fuel)
  refine ⟨?_, ?_, ?_⟩
  · rw [hpart1]
    exact gatheredBlocks_nodup G fuel
  · have hsub : ((G.blocks.filter fun b => decide (b.id ∉ gatheredBlocks G fuel)).map
        (SBlock.id ∘ serializeBlock G)).Sublist (G.blocks.map PBlock.id) := by
      have h2 : ∀ b : PBlock, (SBlock.id ∘ serializeBlock G) b = PBlock.id b := fun b => rfl
      rw [List.map_congr_left fun b _ => h2 b]
      exact (List.filter_sublist G.blocks).map PBlock.id
    exact hsub.nodup hwf.nodupIds
  · rw [hpart1]
    intro x hx
    simp only [List.mem_map, List.mem_filter, Function.comp] at *
    rintro ⟨b, ⟨hbmem, hbg⟩, rfl⟩
    rw [decide_eq_true_eq] at hbg
    exact hbg hx

/-- The parsed block ids form a sub-sequence of the serialized ids. -/
theorem parseBlocks_ids_sublist (factory : Factory) (sm : SMaterial) :
    ((parseBlocks factory sm).map PBlock.id).Sublist (sm.blocks.map SBlock.id) := by
  unfold parseBlocks
  induction sm.blocks with
  | nil => exact List.Sublist.refl []
  | cons sb tl ih =>
    rw [List.filterMap_cons, List.map_cons]
    cases factory sb.customType with
    | none => exact ih.cons sb.id
    | some pr =>
      simp only [Option.map_some', List.map_cons]
      exact ih.cons₂ sb.id

/-- The parsed blocks of the serialized material are exactly the graph
blocks. -/
theorem parseBlocks_mem (G : PGraph) (hwf : G.WF) (factory : Factory)
    (hfact : ∀ b ∈ G.blocks, factory b.customType = some (b.inputNames, b.outputNames))
    (fuel : Nat) (pb : PBlock) :
    pb ∈ parseBlocks factory (serializeMaterial G fuel) ↔ pb ∈ G.blocks := by
  unfold parseBlocks
  simp only [List.mem_filterMap]
  constructor
  · rintro ⟨sb, hsb, h2⟩
    rw [Option.map_eq_some'] at h2
    obtain ⟨pr, hpr, rfl⟩ := h2
    obtain ⟨b0, hb0, rfl⟩ := (serializeMaterial_blocks_mem G hwf fuel sb).1 hsb
    rw [show (serializeBlock G b0).customType = b0.customType from rfl,
      hfact b0 hb0] at hpr
    cases hpr
    exact hb0
  · intro hb0
    refine ⟨serializeBlock G pb, (serializeMaterial_blocks_mem G hwf fuel _).2
      ⟨pb, hb0, rfl⟩, ?_⟩
    rw [show (serializeBlock G pb).customType = pb.customType from rfl, hfact pb hb0]
    rfl

/-- The parsed block ids carry no duplicates. -/
theorem parseBlocks_ids_nodup (G : PGraph) (hwf : G.WF) (factory : Factory)
    (fuel : Nat) :
    ((parseBlocks factory (serializeMaterial G fuel)).map PBlock.id).Nodup :=
  (parseBlocks_ids_sublist factory (serializeMaterial G fuel)).nodup
    (serializeMaterial_ids_nodup G hwf fuel)

/-- Lookup among the parsed blocks agrees with lookup in the graph. -/
theorem findById_parseBlocks (G : PGraph) (hwf : G.WF) (factory : Factory)
    (hfact : ∀ b ∈ G.blocks, factory b.customType = some (b.inputNames, b.outputNames))
    (fuel : Nat) (i : Nat) :
    findById (parseBlocks factory (serializeMaterial G fuel)) i = G.findBlock i := by
  cases hf : G.findBlock i with
  | some b =>
    obtain ⟨hmem, hid⟩ := findById_some G.blocks i b hf
    have hpm : b ∈ parseBlocks factory (serializeMaterial G fuel) :=
      (parseBlocks_mem G hwf factory hfact fuel b).2 hmem
    rw [← hid]
    exact findById_self _ (parseBlocks_ids_nodup G hwf factory fuel) b hpm
  | none =>
    cases hp : findById (parseBlocks factory (serializeMaterial G fuel)) i with
    | none => rfl
    | some pb =>
      obtain ⟨hmem, hid⟩ := findById_some _ i pb hp
      have hgb : pb ∈ G.blocks := (parseBlocks_mem G hwf factory hfact fuel pb).1 hmem
      have hself := findById_self G.blocks hwf.nodupIds pb hgb
      rw [hid] at hself
      unfold PGraph.findBlock at hf
      rw [hf] at hself
      cases hself

/-- The serialized input records of a block are exactly its incoming
edges. -/
theorem serializeBlock_inputs_mem (G : PGraph) (hwf : G.WF) (b0 : PBlock)
    (_hb0 : b0 ∈ G.blocks) (inp : SInput) :
    inp ∈ (serializeBlock G b0).inputs ↔
      ({ toBlock := b0.id, inputName := inp.inputName, fromBlock := inp.targetBlockId,
         outputName := inp.targetConnectionName } : PEdge) ∈ G.edges ∧
        inp.inputName ∈ b0.inputNames := by
  unfold serializeBlock
  simp only [List.mem_filterMap]
  constructor
  · rintro ⟨n, hn, h2⟩
    rw [Option.map_eq_some'] at h2
    obtain ⟨e, he, rfl⟩ := h2
    obtain ⟨hemem, hto, hin⟩ := inputSource_some G.edges b0.id n e he
    simp only
    have heq : ({ toBlock := b0.id, inputName := n, fromBlock := e.fromBlock, outputName := e.outputName } : PEdge) = e := by
      cases e
      simp only at hto hin
      rw [hto, hin]
    rw [heq]
    exact ⟨hemem, hn⟩
  · rintro ⟨hemem, hn⟩
    refine ⟨inp.inputName, hn, ?_⟩
    obtain ⟨e2, he2⟩ := inputSource_isSome_of_mem G.edges _ hemem
    simp only at he2
    obtain ⟨he2mem, he2to, he2in⟩ := inputSource_some G.edges b0.id inp.inputName e2 he2
    have he2eq : e2 = ({ toBlock := b0.id, inputName := inp.inputName, fromBlock := inp.targetBlockId, outputName := inp.targetConnectionName } : PEdge) :=
      edge_key_unique G hwf e2 _ he2mem hemem (by rw [he2to]) (by rw [he2in])
    rw [he2, Option.map_some']
    rw [he2eq]

/-- Unfolding of restoreConnections at fuel zero. -/
theorem restoreConnections_zero (sm : SMaterial) (newBlocks : List PBlock)
    (i : Nat) (ed : List PEdge) : restoreConnections sm newBlocks 0 i ed = ed := rfl

/-- Unfolding of restoreConnections at positive fuel. -/
theorem restoreConnections_succ (sm : SMaterial) (newBlocks : List PBlock)
    (fuel i : Nat) (ed : List PEdge) :
    restoreConnections sm newBlocks (fuel + 1) i ed =
      match findById newBlocks i with
      | none => ed
      | some block =>
          block.outputNames.foldl
            (fun ed1 outName =>
              candFold (restoreConnections sm newBlocks fuel) sm newBlocks i outName ed1)
            ed := rfl

/-- A fold whose steps only append to the connection state only appends. -/
theorem foldl_edges_append {β : Type} (f : List PEdge → β → List PEdge) :
    ∀ l : List β, (∀ ed a, a ∈ l → ∃ s, f ed a = ed ++ s) →
      ∀ ed, ∃ s, l.foldl f ed = ed ++ s := by
  intro l
  induction l with
  | nil => exact fun _ ed => ⟨[], by simp⟩
  | cons x tl ih =>
    intro hf ed
    rw [List.foldl_cons]
    obtain ⟨s1, hs1⟩ := hf ed x (List.mem_cons_self x tl)
    obtain ⟨s2, hs2⟩ := ih (fun ed2 a ha => hf ed2 a (List.mem_cons_of_mem x ha)) (f ed x)
    exact ⟨s1 ++ s2, by rw [hs2, hs1, List.append_assoc]⟩

/-- A property preserved by every step of a fold over the connection
state is preserved by the fold. -/
theorem foldl_edges_preserve {β : Type} (P : List PEdge → Prop)
    (f : List PEdge → β → List PEdge) :
    ∀ l : List β, (∀ ed a, a ∈ l → P ed → P (f ed a)) →
      ∀ ed, P ed → P (l.foldl f ed) := by
  intro l
  induction l with
  | nil => exact fun _ ed h => h
  | cons x tl ih =>
    intro hf ed hP
    rw [List.foldl_cons]
    exact ih (fun ed2 a ha => hf ed2 a (List.mem_cons_of_mem x ha)) (f ed x)
      (hf ed x (List.mem_cons_self x tl) hP)

/-- A monotone goal established by the step of one fold element holds
after the whole fold. -/
theorem foldl_edges_hit {β : Type} (P S : List PEdge → Prop)
    (f : List PEdge → β → List PEdge) :
    ∀ l : List β, ∀ a : β, a ∈ l →
      (∀ ed x, x ∈ l → ∃ s, f ed x = ed ++ s) →
      (∀ ed x, x ∈ l → P ed → P (f ed x)) →
      (∀ ed, P ed → S (f ed a)) →
      (∀ ed s, S ed → S (ed ++ s)) →
      ∀ ed, P ed → S (l.foldl f ed) := by
  intro l
  induction l with
  | nil => intro a ha; cases ha
  | cons x tl ih =>
    intro a ha happend hpres hstep hSmono ed hP
    rw [List.foldl_cons]
    rcases List.mem_cons.1 ha with rfl | ha2
    · obtain ⟨s, hs⟩ := foldl_edges_append f tl
        (fun ed2 y hy => happend ed2 y (List.mem_cons_of_mem a hy)) (f ed a)
      rw [hs]
      exact hSmono _ s (hstep ed hP)
    · exact ih a ha2 (fun ed2 y hy => happend ed2 y (List.mem_cons_of_mem x hy))
        (fun ed2 y hy => hpres ed2 y (List.mem_cons_of_mem x hy)) hstep hSmono
        (f ed x) (hpres ed x (List.mem_cons_self x tl) hP)

/-- The inner restoration loop only appends to the connection state. -/
theorem inputFold_append (recur : Nat → List PEdge → List PEdge)
    (hrec : ∀ i ed, ∃ s, recur i ed = ed ++ s) (blockId : Nat) (outName : String)
    (candidate : SBlock) (target : PBlock) :
    ∀ ed, ∃ s, inputFold recur blockId outName candidate target ed = ed ++ s := by
  intro ed
  unfold inputFold
  refine foldl_edges_append _ candidate.inputs (fun ed3 inp _ => ?_) ed
  by_cases h1 : (inp.targetBlockId == blockId && inp.targetConnectionName == outName) = true
  · rw [if_pos h1]
    by_cases h2 : (target.inputNames.contains inp.inputName &&
        (inputSource ed3 candidate.id inp.inputName).isNone) = true
    · rw [if_pos h2]
      obtain ⟨s, hs⟩ := hrec candidate.id
        (ed3 ++ [{ toBlock := candidate.id, inputName := inp.inputName, fromBlock := blockId, outputName := outName }])
      exact ⟨[{ toBlock := candidate.id, inputName := inp.inputName, fromBlock := blockId, outputName := outName }] ++ s,
        by rw [hs, List.append_assoc]⟩
    · rw [if_neg h2]
      exact ⟨[], by simp⟩
  · rw [if_neg h1]
    exact ⟨[], by simp⟩

/-- The candidate scan only appends to the connection state. -/
theorem candFold_append (recur : Nat → List PEdge → List PEdge)
    (hrec : ∀ i ed, ∃ s, recur i ed = ed ++ s) (sm : SMaterial)
    (newBlocks : List PBlock) (blockId : Nat) (outName : String) :
    ∀ ed, ∃ s, candFold recur sm newBlocks blockId outName ed = ed ++ s := by
  intro ed
  unfold candFold
  refine foldl_edges_append _ sm.blocks (fun ed2 candidate _ => ?_) ed
  cases findById newBlocks candidate.id with
  | none => exact ⟨[], by simp⟩
  | some target => exact inputFold_append recur hrec blockId outName candidate target ed2

/-- The restoration walk only appends to the connection state. -/
theorem restoreConnections_append (sm : SMaterial) (newBlocks : List PBlock) :
    ∀ (fuel i : Nat) (ed : List PEdge),
      ∃ s, restoreConnections sm newBlocks fuel i ed = ed ++ s := by
  intro fuel
  induction fuel with
  | zero => exact fun i ed => ⟨[], by simp [restoreConnections_zero]⟩
  | succ f ih =>
    intro i ed
    rw [restoreConnections_succ]
    cases findById newBlocks i with
    | none => exact ⟨[], by simp⟩
    | some block =>
      simp only
      refine foldl_edges_append _ block.outputNames (fun ed1 outName _ => ?_) ed
      exact candFold_append (restoreConnections sm newBlocks f) (fun j ed2 => ih j ed2)
        sm newBlocks i outName ed1

/-- Adding a fresh graph edge over a free input point keeps the
connection-state invariant. -/
theorem edgeInv_append (G : PGraph) (ed : List PEdge) (e : PEdge)
    (hInv : EdgeInv G ed) (he : e ∈ G.edges)
    (hfree : inputSource ed e.toBlock e.inputName = none) : EdgeInv G (ed ++ [e]) := by
  obtain ⟨hmem, hkeys⟩ := hInv
  refine ⟨?_, ?_⟩
  · intro e2 he2
    rcases List.mem_append.1 he2 with h | h
    · exact hmem e2 h
    · rw [List.mem_singleton.1 h]
      exact he
  · rw [List.map_append, List.nodup_append]
    refine ⟨hkeys, List.nodup_singleton _, ?_⟩
    intro k hk
    simp only [List.mem_map] at hk
    obtain ⟨e2, he2, rfl⟩ := hk
    simp only [List.map_cons, List.map_nil, List.mem_singleton]
    intro hkey
    have := (inputSource_none_iff ed e.toBlock e.inputName).1 hfree e2 he2
    have hkk : e2.toBlock = e.toBlock ∧ e2.inputName = e.inputName := by
      have h1 := congrArg Prod.fst hkey
      have h2 := congrArg Prod.snd hkey
      exact ⟨h1, h2⟩
    exact this hkk

/-- Block completion is monotone in the connection state. -/
theorem outDone_mono (G : PGraph) (ed1 ed2 : List PEdge) (i : Nat)
    (h : OutDone G ed1 i) (hsub : ed1 ⊆ ed2) : OutDone G ed2 i :=
  fun e he hf => hsub (h e he hf)

/-- A larger connection state leaves fewer graph edges unrestored. -/
theorem unresCount_le (G : PGraph) (ed1 ed2 : List PEdge) (h : ed1 ⊆ ed2) :
    unresCount G ed2 ≤ unresCount G ed1 := by
  refine filter_length_le_of_imp _ _ (fun e => ?_) G.edges
  simp only [decide_eq_true_eq]
  exact fun h2 hc => h2 (h hc)

/-- Adding a missing graph edge strictly shrinks the unrestored count. -/
theorem unresCount_lt (G : PGraph) (ed : List PEdge) (e : PEdge)
    (he : e ∈ G.edges) (hnm : e ∉ ed) :
    unresCount G (ed ++ [e]) < unresCount G ed := by
  obtain ⟨s, t, hst⟩ := List.append_of_mem he
  have himp : ∀ e2 : PEdge, decide (e2 ∉ ed ++ [e]) = true → decide (e2 ∉ ed) = true := by
    intro e2
    simp only [decide_eq_true_eq]
    exact fun h2 hc => h2 (List.mem_append_left [e] hc)
  have hs := filter_length_le_of_imp _ _ himp s
  have ht := filter_length_le_of_imp _ _ himp t
  unfold unresCount
  rw [hst]
  simp only [List.filter_append, List.length_append, List.filter_cons]
  have h1 : decide (e ∉ ed ++ [e]) = false := by simp
  have h2 : decide (e ∉ ed) = true := by simpa using hnm
  rw [h1, h2]
  simp only [Bool.false_eq_true, if_false, if_true, List.length_cons]
  omega

/-- The unrestored count of the empty state is the edge count. -/
theorem unresCount_nil (G : PGraph) : unresCount G [] = G.edges.length := by
  unfold unresCount
  simp

/-- The edge a passing restoration step would add is a graph edge. -/
theorem inputFold_newEdge_mem (G : PGraph) (hwf : G.WF) (b0 : PBlock)
    (hb0 : b0 ∈ G.blocks) (candidate : SBlock) (hcand : candidate = serializeBlock G b0)
    (blockId : Nat) (outName : String) (inp : SInput) (hinp : inp ∈ candidate.inputs)
    (h1 : inp.targetBlockId = blockId) (h2 : inp.targetConnectionName = outName) :
    ({ toBlock := candidate.id, inputName := inp.inputName, fromBlock := blockId, outputName := outName } : PEdge) ∈ G.edges := by
  subst hcand
  have hmem := ((serializeBlock_inputs_mem G hwf b0 hb0 inp).1 hinp).1
  rw [show (serializeBlock G b0).id = b0.id from rfl, ← h1, ← h2]
  exact hmem

/-- One restoration step keeps the connection-state invariant. -/
theorem inputFold_step_inv (G : PGraph) (hwf : G.WF)
    (recur : Nat → List PEdge → List PEdge)
    (hrecInv : ∀ i ed, EdgeInv G ed → EdgeInv G (recur i ed))
    (b0 : PBlock) (hb0 : b0 ∈ G.blocks) (candidate : SBlock)
    (hcand : candidate = serializeBlock G b0) (blockId : Nat) (outName : String)
    (target : PBlock) (ed3 : List PEdge) (inp : SInput) (hinp : inp ∈ candidate.inputs)
    (hInv : EdgeInv G ed3) :
    EdgeInv G
      (if inp.targetBlockId == blockId && inp.targetConnectionName == outName then
        if target.inputNames.contains inp.inputName &&
            (inputSource ed3 candidate.id inp.inputName).isNone then
          recur candidate.id
            (ed3 ++ [{ toBlock := candidate.id, inputName := inp.inputName, fromBlock := blockId, outputName := outName }])
        else ed3
      else ed3) := by
  by_cases h1 : (inp.targetBlockId == blockId && inp.targetConnectionName == outName) = true
  · rw [if_pos h1]
    by_cases h2 : (target.inputNames.contains inp.inputName &&
        (inputSource ed3 candidate.id inp.inputName).isNone) = true
    · rw [if_pos h2]
      rw [Bool.and_eq_true, beq_iff_eq, beq_iff_eq] at h1
      rw [Bool.and_eq_true] at h2
      have hfree : inputSource ed3 candidate.id inp.inputName = none :=
        Option.isNone_iff_eq_none.1 h2.2
      have hmemE := inputFold_newEdge_mem G hwf b0 hb0 candidate hcand blockId outName
        inp hinp h1.1 h1.2
      exact hrecInv _ _ (edgeInv_append G ed3 _ hInv hmemE hfree)
    · rw [if_neg h2]
      exact hInv
  · rw [if_neg h1]
    exact hInv

/-- The inner restoration loop keeps the connection-state invariant. -/
theorem inputFold_inv (G : PGraph) (hwf : G.WF)
    (recur : Nat → List PEdge → List PEdge)
    (hrecInv : ∀ i ed, EdgeInv G ed → EdgeInv G (recur i ed))
    (b0 : PBlock) (hb0 : b0 ∈ G.blocks) (candidate : SBlock)
    (hcand : candidate = serializeBlock G b0) (blockId : Nat) (outName : String)
    (target : PBlock) :
    ∀ ed, EdgeInv G ed → EdgeInv G (inputFold recur blockId outName candidate target ed) := by
  intro ed hInv
  unfold inputFold
  exact foldl_edges_preserve _ _ candidate.inputs
    (fun ed3 inp hinp hI =>
      inputFold_step_inv G hwf recur hrecInv b0 hb0 candidate hcand blockId outName
        target ed3 inp hinp hI) ed hInv

/-- The candidate scan keeps the connection-state invariant. -/
theorem candFold_inv (G : PGraph) (hwf : G.WF) (sfuel : Nat)
    (recur : Nat → List PEdge → List PEdge)
    (hrecInv : ∀ i ed, EdgeInv G ed → EdgeInv G (recur i ed))
    (newBlocks : List PBlock) (blockId : Nat) (outName : String) :
    ∀ ed, EdgeInv G ed →
      EdgeInv G (candFold recur (serializeMaterial G sfuel) newBlocks blockId outName ed) := by
  intro ed hInv
  unfold candFold
  refine foldl_edges_preserve _ _ (serializeMaterial G sfuel).blocks
    (fun ed2 candidate hcand2 hI => ?_) ed hInv
  obtain ⟨b0, hb0, rfl⟩ := (serializeMaterial_blocks_mem G hwf sfuel candidate).1 hcand2
  cases findById newBlocks (serializeBlock G b0).id with
  | none => exact hI
  | some target =>
    exact inputFold_inv G hwf recur hrecInv b0 hb0 _ rfl blockId outName target ed2 hI

/-- The restoration walk keeps the connection-state invariant. -/
theorem restoreConnections_inv (G : PGraph) (hwf : G.WF) (sfuel : Nat)
    (newBlocks : List PBlock) :
    ∀ (fuel i : Nat) (ed : List PEdge), EdgeInv G ed →
      EdgeInv G (restoreConnections (serializeMaterial G sfuel) newBlocks fuel i ed) := by
  intro fuel
  induction fuel with
  | zero => exact fun i ed h => h
  | succ f ih =>
    intro i ed hInv
    rw [restoreConnections_succ]
    cases findById newBlocks i with
    | none => exact hInv
    | some block =>
      simp only
      refine foldl_edges_preserve _ _ block.outputNames
        (fun ed1 outName _ hI => ?_) ed hInv
      exact candFold_inv G hwf sfuel _ (fun j ed2 hi => ih j ed2 hi) newBlocks i outName ed1 hI

/-- One restoration step only appends to the connection state. -/
theorem inputFold_step_append (recur : Nat → List PEdge → List PEdge)
    (hrecA : ∀ i ed, ∃ s, recur i ed = ed ++ s) (blockId : Nat) (outName : String)
    (candidate : SBlock) (target : PBlock) (ed3 : List PEdge) (inp : SInput) :
    ∃ s,
      (if inp.targetBlockId == blockId && inp.targetConnectionName == outName then
        if target.inputNames.contains inp.inputName &&
            (inputSource ed3 candidate.id inp.inputName).isNone then
          recur candidate.id
            (ed3 ++ [{ toBlock := candidate.id, inputName := inp.inputName, fromBlock := blockId, outputName := outName }])
        else ed3
      else ed3) = ed3 ++ s := by
  by_cases h1 : (inp.targetBlockId == blockId && inp.targetConnectionName == outName) = true
  · rw [if_pos h1]
    by_cases h2 : (target.inputNames.contains inp.inputName &&
        (inputSource ed3 candidate.id inp.inputName).isNone) = true
    · rw [if_pos h2]
      obtain ⟨s, hs⟩ := hrecA candidate.id
        (ed3 ++ [{ toBlock := candidate.id, inputName := inp.inputName, fromBlock := blockId, outputName := outName }])
      exact ⟨[{ toBlock := candidate.id, inputName := inp.inputName, fromBlock := blockId, outputName := outName }] ++ s,
        by rw [hs, List.append_assoc]⟩
    · rw [if_neg h2]
      exact ⟨[], by simp⟩
  · rw [if_neg h1]
    exact ⟨[], by simp⟩

/-- The inner restoration loop keeps the running invariant of one
restoration call. -/
theorem inputFold_preserve (G : PGraph) (hwf : G.WF) (f : Nat)
    (recur : Nat → List PEdge → List PEdge)
    (hrecA : ∀ i ed, ∃ s, recur i ed = ed ++ s)
    (hrecInv : ∀ i ed, EdgeInv G ed → EdgeInv G (recur i ed))
    (hrecMain : ∀ (i : Nat) (blk : PBlock) (ed : List PEdge), G.findBlock i = some blk →
      EdgeInv G ed → unresCount G ed < f →
      OutDone G (recur i ed) i ∧ ∀ e ∈ recur i ed, e ∈ ed ∨ OutDone G (recur i ed) e.toBlock)
    (ed0 : List PEdge) (b0 : PBlock) (hb0 : b0 ∈ G.blocks) (candidate : SBlock)
    (hcand : candidate = serializeBlock G b0) (blockId : Nat) (outName : String)
    (target : PBlock) :
    ∀ ed, RestoreInv G ed0 (f + 1) ed →
      RestoreInv G ed0 (f + 1) (inputFold recur blockId outName candidate target ed) := by
  intro ed hP
  unfold inputFold
  refine foldl_edges_preserve _ _ candidate.inputs (fun ed3 inp hinp hP3 => ?_) ed hP
  obtain ⟨hInv3, hcnt3, hJ3⟩ := hP3
  by_cases h1 : (inp.targetBlockId == blockId && inp.targetConnectionName == outName) = true
  swap
  · rw [if_neg h1]
    exact ⟨hInv3, hcnt3, hJ3⟩
  rw [if_pos h1]
  by_cases h2 : (target.inputNames.contains inp.inputName &&
      (inputSource ed3 candidate.id inp.inputName).isNone) = true
  swap
  · rw [if_neg h2]
    exact ⟨hInv3, hcnt3, hJ3⟩
  rw [if_pos h2]
  have h1e := h1
  rw [Bool.and_eq_true, beq_iff_eq, beq_iff_eq] at h1e
  rw [Bool.and_eq_true] at h2
  have hfree : inputSource ed3 candidate.id inp.inputName = none :=
    Option.isNone_iff_eq_none.1 h2.2
  set newE : PEdge := { toBlock := candidate.id, inputName := inp.inputName, fromBlock := blockId, outputName := outName } with hnewE
  have hmemE : newE ∈ G.edges :=
    inputFold_newEdge_mem G hwf b0 hb0 candidate hcand blockId outName inp hinp h1e.1 h1e.2
  have hnotin : newE ∉ ed3 := by
    intro hmem
    exact (inputSource_none_iff ed3 candidate.id inp.inputName).1 hfree newE hmem ⟨rfl, rfl⟩
  have hInv4 : EdgeInv G (ed3 ++ [newE]) := edgeInv_append G ed3 newE hInv3 hmemE hfree
  have hcnt4 : unresCount G (ed3 ++ [newE]) < f := by
    have := unresCount_lt G ed3 newE hmemE hnotin
    omega
  have hfind : G.findBlock candidate.id = some b0 := by
    subst hcand
    exact findById_self G.blocks hwf.nodupIds b0 hb0
  obtain ⟨hdone, hJrec⟩ := hrecMain candidate.id b0 (ed3 ++ [newE]) hfind hInv4 hcnt4
  obtain ⟨s, hs⟩ := hrecA candidate.id (ed3 ++ [newE])
  have hsub3 : ed3 ⊆ recur candidate.id (ed3 ++ [newE]) := by
    rw [hs]
    intro x hx
    exact List.mem_append_left _ (List.mem_append_left _ hx)
  refine ⟨hrecInv _ _ hInv4, lt_of_le_of_lt (unresCount_le G _ _ hsub3) hcnt3, ?_⟩
  intro e he
  rcases hJrec e he with hcase | hcase
  · rcases List.mem_append.1 hcase with h3 | h3
    · rcases hJ3 e h3 with h4 | h4
      · exact Or.inl h4
      · exact Or.inr (outDone_mono G ed3 _ _ h4 hsub3)
    · rw [List.mem_singleton.1 h3]
      exact Or.inr hdone
  · exact Or.inr hcase

/-- The candidate scan keeps the running invariant of one restoration
call. -/
theorem candFold_preserve (G : PGraph) (hwf : G.WF) (sfuel f : Nat)
    (recur : Nat → List PEdge → List PEdge)
    (hrecA : ∀ i ed, ∃ s, recur i ed = ed ++ s)
    (hrecInv : ∀ i ed, EdgeInv G ed → EdgeInv G (recur i ed))
    (hrecMain : ∀ (i : Nat) (blk : PBlock) (ed : List PEdge), G.findBlock i = some blk →
      EdgeInv G ed → unresCount G ed < f →
      OutDone G (recur i ed) i ∧ ∀ e ∈ recur i ed, e ∈ ed ∨ OutDone G (recur i ed) e.toBlock)
    (ed0 : List PEdge) (newBlocks : List PBlock) (blockId : Nat) (outName : String) :
    ∀ ed, RestoreInv G ed0 (f + 1) ed →
      RestoreInv G ed0 (f + 1)
        (candFold recur (serializeMaterial G sfuel) newBlocks blockId outName ed) := by
  intro ed hP
  unfold candFold
  refine foldl_edges_preserve _ _ (serializeMaterial G sfuel).blocks
    (fun ed2 candidate hcand2 hP2 => ?_) ed hP
  obtain ⟨b0, hb0, rfl⟩ := (serializeMaterial_blocks_mem G hwf sfuel candidate).1 hcand2
  cases findById newBlocks (serializeBlock G b0).id with
  | none => exact hP2
  | some target =>
    exact inputFold_preserve G hwf f recur hrecA hrecInv hrecMain ed0 b0 hb0 _ rfl
      blockId outName target ed2 hP2

/-- The inner restoration loop restores one specific graph edge of the
visited block when the candidate serializes the edge target. -/
theorem inputFold_hit (G : PGraph) (hwf : G.WF)
    (recur : Nat → List PEdge → List PEdge)
    (hrecA : ∀ i ed, ∃ s, recur i ed = ed ++ s)
    (hrecInv : ∀ i ed, EdgeInv G ed → EdgeInv G (recur i ed))
    (bt : PBlock) (hbt : bt ∈ G.blocks) (candidate : SBlock)
    (hcand : candidate = serializeBlock G bt)
    (e : PEdge) (he : e ∈ G.edges) (hto : e.toBlock = bt.id)
    (hin : e.inputName ∈ bt.inputNames) :
    ∀ ed, EdgeInv G ed →
      e ∈ inputFold recur e.fromBlock e.outputName candidate bt ed := by
  have hinp0 : ({ inputName := e.inputName, targetBlockId := e.fromBlock, targetConnectionName := e.outputName } : SInput) ∈ candidate.inputs := by
    subst hcand
    refine (serializeBlock_inputs_mem G hwf bt hbt _).2 ⟨?_, hin⟩
    have hlit : ({ toBlock := bt.id, inputName := e.inputName, fromBlock := e.fromBlock, outputName := e.outputName } : PEdge) = e := by
      rw [← hto]
    rw [hlit]
    exact he
  intro ed hInv
  unfold inputFold
  refine foldl_edges_hit (EdgeInv G) (fun st => e ∈ st) _ candidate.inputs
    ({ inputName := e.inputName, targetBlockId := e.fromBlock, targetConnectionName := e.outputName } : SInput)
    hinp0 (fun ed3 inp _ => inputFold_step_append recur hrecA e.fromBlock e.outputName
      candidate bt ed3 inp)
    (fun ed3 inp hinp hI => inputFold_step_inv G hwf recur hrecInv bt hbt candidate hcand
      e.fromBlock e.outputName bt ed3 inp hinp hI)
    ?_ (fun ed2 s hS => List.mem_append_left s hS) ed hInv
  intro ed3 hI3
  have h1 : (({ inputName := e.inputName, targetBlockId := e.fromBlock, targetConnectionName := e.outputName } : SInput).targetBlockId == e.fromBlock &&
      ({ inputName := e.inputName, targetBlockId := e.fromBlock, targetConnectionName := e.outputName } : SInput).targetConnectionName == e.outputName) = true := by
    simp
  rw [if_pos h1]
  have hcont : bt.inputNames.contains e.inputName = true := by
    simpa using hin
  cases hns : inputSource ed3 candidate.id e.inputName with
  | none =>
    rw [if_pos (by simp [hin])]
    have hlit2 : ({ toBlock := candidate.id, inputName := e.inputName, fromBlock := e.fromBlock, outputName := e.outputName } : PEdge) = e := by
      subst hcand
      rw [show (serializeBlock G bt).id = bt.id from rfl, ← hto]
    obtain ⟨s, hs⟩ := hrecA candidate.id (ed3 ++ [{ toBlock := candidate.id, inputName := e.inputName, fromBlock := e.fromBlock, outputName := e.outputName }])
    show e ∈ recur candidate.id
      (ed3 ++ [{ toBlock := candidate.id, inputName := e.inputName, fromBlock := e.fromBlock, outputName := e.outputName }])
    rw [hs, hlit2]
    exact List.mem_append_left s (List.mem_append_right ed3 (List.mem_singleton_self e))
  | some e2 =>
    rw [if_neg (by simp)]
    obtain ⟨he2mem, he2to, he2in⟩ := inputSource_some ed3 candidate.id e.inputName e2 hns
    have he2G : e2 ∈ G.edges := hI3.1 e2 he2mem
    have he2eq : e2 = e := by
      refine edge_key_unique G hwf e2 e he2G he ?_ ?_
      · rw [he2to, hto]
        subst hcand
        rfl
      · rw [he2in]
    rw [← he2eq]
    exact he2mem

/-- The candidate scan restores every graph edge out of the visited
block named by the scanned output. -/
theorem candFold_hit (G : PGraph) (hwf : G.WF) (factory : Factory)
    (hfact : ∀ b ∈ G.blocks, factory b.customType = some (b.inputNames, b.outputNames))
    (sfuel : Nat) (recur : Nat → List PEdge → List PEdge)
    (hrecA : ∀ i ed, ∃ s, recur i ed = ed ++ s)
    (hrecInv : ∀ i ed, EdgeInv G ed → EdgeInv G (recur i ed))
    (e : PEdge) (he : e ∈ G.edges) :
    ∀ ed, EdgeInv G ed →
      e ∈ candFold recur (serializeMaterial G sfuel)
        (parseBlocks factory (serializeMaterial G sfuel)) e.fromBlock e.outputName ed := by
  obtain ⟨bt, hbt, hbtid, hbtin⟩ := hwf.edgeTo e he
  have hcmem : serializeBlock G bt ∈ (serializeMaterial G sfuel).blocks :=
    (serializeMaterial_blocks_mem G hwf sfuel _).2 ⟨bt, hbt, rfl⟩
  have hfindbt : findById (parseBlocks factory (serializeMaterial G sfuel))
      (serializeBlock G bt).id = some bt := by
    rw [findById_parseBlocks G hwf factory hfact sfuel]
    exact findById_self G.blocks hwf.nodupIds bt hbt
  intro ed hInv
  unfold candFold
  refine foldl_edges_hit (EdgeInv G) (fun st => e ∈ st) _ (serializeMaterial G sfuel).blocks
    (serializeBlock G bt) hcmem ?_ ?_ ?_ (fun ed2 s hS => List.mem_append_left s hS) ed hInv
  · intro ed2 candidate hcand2
    cases findById (parseBlocks factory (serializeMaterial G sfuel)) candidate.id with
    | none => exact ⟨[], by simp⟩
    | some target =>
      exact inputFold_append recur hrecA e.fromBlock e.outputName candidate target ed2
  · intro ed2 candidate hcand2 hI
    obtain ⟨b0, hb0, rfl⟩ := (serializeMaterial_blocks_mem G hwf sfuel candidate).1 hcand2
    cases findById (parseBlocks factory (serializeMaterial G sfuel)) (serializeBlock G b0).id with
    | none => exact hI
    | some target =>
      exact inputFold_inv G hwf recur hrecInv b0 hb0 _ rfl e.fromBlock e.outputName
        target ed2 hI
  · intro ed2 hI
    rw [hfindbt]
    exact inputFold_hit G hwf recur hrecA hrecInv bt hbt _ rfl e he hbtid.symm hbtin ed2 hI

/-- Main property of one restoration call: with enough fuel, every graph
edge out of the visited block is restored, and every restored edge not
inherited from the entry state has a completed target block. -/
theorem restoreConnections_main (G : PGraph) (hwf : G.WF) (factory : Factory)
    (hfact : ∀ b ∈ G.blocks, factory b.customType = some (b.inputNames, b.outputNames))
    (sfuel : Nat) :
    ∀ (fuel blockId : Nat) (blk : PBlock) (ed : List PEdge),
      G.findBlock blockId = some blk → EdgeInv G ed → unresCount G ed < fuel →
      OutDone G (restoreConnections (serializeMaterial G sfuel)
        (parseBlocks factory (serializeMaterial G sfuel)) fuel blockId ed) blockId ∧
      ∀ e ∈ restoreConnections (serializeMaterial G sfuel)
          (parseBlocks factory (serializeMaterial G sfuel)) fuel blockId ed,
        e ∈ ed ∨ OutDone G (restoreConnections (serializeMaterial G sfuel)
          (parseBlocks factory (serializeMaterial G sfuel)) fuel blockId ed) e.toBlock := by
  intro fuel
  induction fuel with
  | zero => intro blockId blk ed _ _ h; exact absurd h (Nat.not_lt_zero _)
  | succ f ih =>
    intro blockId blk ed hfind hinv hcnt
    have hrecA : ∀ (i : Nat) (ed2 : List PEdge),
        ∃ s, restoreConnections (serializeMaterial G sfuel)
          (parseBlocks factory (serializeMaterial G sfuel)) f i ed2 = ed2 ++ s :=
      fun i ed2 => restoreConnections_append _ _ f i ed2
    have hrecInv : ∀ (i : Nat) (ed2 : List PEdge), EdgeInv G ed2 →
        EdgeInv G (restoreConnections (serializeMaterial G sfuel)
          (parseBlocks factory (serializeMaterial G sfuel)) f i ed2) :=
      fun i ed2 h => restoreConnections_inv G hwf sfuel _ f i ed2 h
    have hNBfind : findById (parseBlocks factory (serializeMaterial G sfuel)) blockId =
        some blk := by
      rw [findById_parseBlocks G hwf factory hfact sfuel blockId]
      exact hfind
    rw [restoreConnections_succ, hNBfind]
    simp only
    have hPstart : RestoreInv G ed (f + 1) ed := ⟨hinv, hcnt, fun e he => Or.inl he⟩
    have hstepPres : ∀ (ed1 : List PEdge) (outName : String), outName ∈ blk.outputNames →
        RestoreInv G ed (f + 1) ed1 →
        RestoreInv G ed (f + 1)
          (candFold (restoreConnections (serializeMaterial G sfuel)
            (parseBlocks factory (serializeMaterial G sfuel)) f) (serializeMaterial G sfuel)
            (parseBlocks factory (serializeMaterial G sfuel)) blockId outName ed1) :=
      fun ed1 outName _ hP =>
        candFold_preserve G hwf sfuel f _ hrecA hrecInv ih ed _ blockId outName ed1 hP
    have hstepApp : ∀ (ed1 : List PEdge) (outName : String), outName ∈ blk.outputNames →
        ∃ s, candFold (restoreConnections (serializeMaterial G sfuel)
          (parseBlocks factory (serializeMaterial G sfuel)) f) (serializeMaterial G sfuel)
          (parseBlocks factory (serializeMaterial G sfuel)) blockId outName ed1 = ed1 ++ s :=
      fun ed1 outName _ =>
        candFold_append _ hrecA (serializeMaterial G sfuel) _ blockId outName ed1
    have hfinal := foldl_edges_preserve (RestoreInv G ed (f + 1)) _ blk.outputNames
      hstepPres ed hPstart
    constructor
    · intro e he hef
      obtain ⟨bf, hbf, hbfid, hout⟩ := hwf.edgeFrom e he
      have hbfblk : bf = blk := by
        obtain ⟨hblkmem, hblkid⟩ := findById_some G.blocks blockId blk hfind
        exact mem_eq_of_map_nodup PBlock.id G.blocks hwf.nodupIds bf hbf blk hblkmem
          (by rw [hbfid, hef, hblkid])
      rw [hbfblk] at hout
      subst hef
      exact foldl_edges_hit (RestoreInv G ed (f + 1)) (fun st => e ∈ st) _
        blk.outputNames e.outputName hout hstepApp hstepPres
        (fun ed1 hP => candFold_hit G hwf factory hfact sfuel _ hrecA hrecInv e he ed1 hP.1)
        (fun ed2 s hS => List.mem_append_left s hS) ed hPstart
    · exact hfinal.2.2

/-- One step of the outer connection loop keeps the parse invariant. -/
theorem parseEdges_step_pres (G : PGraph) (hwf : G.WF) (factory : Factory)
    (hfact : ∀ b ∈ G.blocks, factory b.customType = some (b.inputNames, b.outputNames))
    (sfuel fuel : Nat) :
    ∀ (ed : List PEdge) (sb : SBlock), ParseInv G fuel ed →
      ParseInv G fuel
        (match findById (parseBlocks factory (serializeMaterial G sfuel)) sb.id with
         | none => ed
         | some block =>
             if block.inputNames.isEmpty then
               restoreConnections (serializeMaterial G sfuel)
                 (parseBlocks factory (serializeMaterial G sfuel)) fuel sb.id ed
             else ed) := by
  intro ed sb hP
  cases hfd : findById (parseBlocks factory (serializeMaterial G sfuel)) sb.id with
  | none => exact hP
  | some block =>
    simp only
    cases hemp : block.inputNames.isEmpty with
    | false =>
      simp only [Bool.false_eq_true, if_false]
      exact hP
    | true =>
      simp only [if_true]
      obtain ⟨hInv, hcnt, hJ⟩ := hP
      have hGfind : G.findBlock sb.id = some block := by
        rw [← findById_parseBlocks G hwf factory hfact sfuel]
        exact hfd
      obtain ⟨hdone, hJ2⟩ := restoreConnections_main G hwf factory hfact sfuel fuel
        sb.id block ed hGfind hInv hcnt
      obtain ⟨s, hs⟩ := restoreConnections_append (serializeMaterial G sfuel)
        (parseBlocks factory (serializeMaterial G sfuel)) fuel sb.id ed
      have hsub : ed ⊆ restoreConnections (serializeMaterial G sfuel)
          (parseBlocks factory (serializeMaterial G sfuel)) fuel sb.id ed := by
        rw [hs]
        exact fun x hx => List.mem_append_left s hx
      refine ⟨restoreConnections_inv G hwf sfuel _ fuel sb.id ed hInv,
        lt_of_le_of_lt (unresCount_le G ed _ hsub) hcnt, ?_⟩
      intro e he
      rcases hJ2 e he with h | h
      · exact outDone_mono G ed _ e.toBlock (hJ e h) hsub
      · exact h

/-- One step of the outer connection loop only appends connections. -/
theorem parseEdges_step_app (G : PGraph) (factory : Factory) (sfuel fuel : Nat) :
    ∀ (ed : List PEdge) (sb : SBlock),
      ∃ s,
        (match findById (parseBlocks factory (serializeMaterial G sfuel)) sb.id with
         | none => ed
         | some block =>
             if block.inputNames.isEmpty then
               restoreConnections (serializeMaterial G sfuel)
                 (parseBlocks factory (serializeMaterial G sfuel)) fuel sb.id ed
             else ed) = ed ++ s := by
  intro ed sb
  cases findById (parseBlocks factory (serializeMaterial G sfuel)) sb.id with
  | none => exact ⟨[], by simp⟩
  | some block =>
    simp only
    cases block.inputNames.isEmpty with
    | false =>
      simp only [Bool.false_eq_true, if_false]
      exact ⟨[], by simp⟩
    | true =>
      simp only [if_true]
      exact restoreConnections_append (serializeMaterial G sfuel)
        (parseBlocks factory (serializeMaterial G sfuel)) fuel sb.id ed

/-- The restored connection state of the parse satisfies the parse
invariant whenever the fuel exceeds the edge count. -/
theorem parseEdges_inv (G : PGraph) (hwf : G.WF) (factory : Factory)
    (hfact : ∀ b ∈ G.blocks, factory b.customType = some (b.inputNames, b.outputNames))
    (sfuel fuel : Nat) (hfuel : G.edges.length < fuel) :
    ParseInv G fuel (parseEdges (serializeMaterial G sfuel)
      (parseBlocks factory (serializeMaterial G sfuel)) fuel) := by
  unfold parseEdges
  refine foldl_edges_preserve (ParseInv G fuel) _ (serializeMaterial G sfuel).blocks
    (fun ed sb _ hP => parseEdges_step_pres G hwf factory hfact sfuel fuel ed sb hP) []
    ⟨⟨fun e he => absurd he (List.not_mem_nil e), List.nodup_nil⟩,
      by rw [unresCount_nil]; exact hfuel,
      fun e he => absurd he (List.not_mem_nil e)⟩

/-- Every instantiated block with no declared inputs has all its outgoing
graph edges restored by the parse. -/
theorem parseEdges_leafDone (G : PGraph) (hwf : G.WF) (factory : Factory)
    (hfact : ∀ b ∈ G.blocks, factory b.customType = some (b.inputNames, b.outputNames))
    (sfuel fuel : Nat) (hfuel : G.edges.length < fuel)
    (b : PBlock) (hb : b ∈ G.blocks) (hleaf : b.inputNames = []) :
    OutDone G (parseEdges (serializeMaterial G sfuel)
      (parseBlocks factory (serializeMaterial G sfuel)) fuel) b.id := by
  have hsmem : serializeBlock G b ∈ (serializeMaterial G sfuel).blocks :=
    (serializeMaterial_blocks_mem G hwf sfuel _).2 ⟨b, hb, rfl⟩
  have hfd : findById (parseBlocks factory (serializeMaterial G sfuel))
      (serializeBlock G b).id = some b := by
    rw [findById_parseBlocks G hwf factory hfact sfuel]
    exact findById_self G.blocks hwf.nodupIds b hb
  unfold parseEdges
  refine foldl_edges_hit (ParseInv G fuel) (fun st => OutDone G st b.id) _
    (serializeMaterial G sfuel).blocks (serializeBlock G b) hsmem
    (fun ed sb _ => parseEdges_step_app G factory sfuel fuel ed sb)
    (fun ed sb _ hP => parseEdges_step_pres G hwf factory hfact sfuel fuel ed sb hP)
    ?_ (fun ed s hS => outDone_mono G ed (ed ++ s) b.id hS (fun x hx => List.mem_append_left s hx))
    [] ⟨⟨fun e he => absurd he (List.not_mem_nil e), List.nodup_nil⟩,
      by rw [unresCount_nil]; exact hfuel,
      fun e he => absurd he (List.not_mem_nil e)⟩
  intro ed hP
  rw [hfd]
  show OutDone G (if b.inputNames.isEmpty then restoreConnections (serializeMaterial G sfuel)
    (parseBlocks factory (serializeMaterial G sfuel)) fuel (serializeBlock G b).id ed else ed) b.id
  rw [hleaf]
  simp only [List.isEmpty_nil, if_true]
  have hGfind : G.findBlock (serializeBlock G b).id = some b :=
    findById_self G.blocks hwf.nodupIds b hb
  exact (restoreConnections_main G hwf factory hfact sfuel fuel (serializeBlock G b).id b ed
    hGfind hP.1 hP.2.1).1

/-- Every forward-restorable block has all its outgoing graph edges
restored by the parse. -/
theorem procReach_outDone (G : PGraph) (hwf : G.WF) (factory : Factory)
    (hfact : ∀ b ∈ G.blocks, factory b.customType = some (b.inputNames, b.outputNames))
    (sfuel fuel : Nat) (hfuel : G.edges.length < fuel) :
    ∀ i, ProcReach G i →
      OutDone G (parseEdges (serializeMaterial G sfuel)
        (parseBlocks factory (serializeMaterial G sfuel)) fuel) i := by
  intro i h
  induction h with
  | leaf b hb hleaf => exact parseEdges_leafDone G hwf factory hfact sfuel fuel hfuel b hb hleaf
  | step e he _ ih =>
    exact (parseEdges_inv G hwf factory hfact sfuel fuel hfuel).2.2 e (ih e he rfl)

/-- Mapping a function that fixes every member is the identity. -/
theorem map_id_of_mem {α : Type} (f : α → α) :
    ∀ l : List α, (∀ a ∈ l, f a = a) → l.map f = l := by
  intro l
  induction l with
  | nil => intro _; rfl
  | cons x tl ih =>
    intro h
    rw [List.map_cons, h x (List.mem_cons_self x tl),
      ih (fun a ha => h a (List.mem_cons_of_mem x ha))]

/-- The dedup-append fold is a plain append when the appended list has no
duplicates and is disjoint from the accumulator. -/
theorem foldl_dedup_append :
    ∀ (l2 l1 : List Nat), l2.Nodup → (∀ r ∈ l2, r ∉ l1) →
      List.foldl (fun acc r => if r ∈ acc then acc else acc ++ [r]) l1 l2 = l1 ++ l2 := by
  intro l2
  induction l2 with
  | nil => intro l1 _ _; simp
  | cons r rest ih =>
    intro l1 hnd hdisj
    have hd2 : ∀ x ∈ rest, x ∉ l1 ++ [r] := by
      intro x hx hmem
      rcases List.mem_append.1 hmem with h | h
      · exact hdisj x (List.mem_cons_of_mem r hx) h
      · exact (List.nodup_cons.1 hnd).1 (List.mem_singleton.1 h ▸ hx)
    rw [List.foldl_cons, if_neg (hdisj r (List.mem_cons_self r rest)),
      ih (l1 ++ [r]) (List.nodup_cons.1 hnd).2 hd2]
    simp

/-- Under the wellformedness root conventions, the outputNodes loop of
serialize records exactly the vertex roots followed by the fragment
roots. -/
theorem serializeOutputNodes_eq (G : PGraph) (hwf : G.WF) :
    serializeOutputNodes G = G.vertexOutputNodes ++ G.fragmentOutputNodes := by
  have hdisj : ∀ r ∈ G.fragmentOutputNodes, r ∉ G.vertexOutputNodes := by
    intro r hf hv
    obtain ⟨bf, hbf, hbfid, hbft⟩ := hwf.fragmentRootsTarget r hf
    obtain ⟨bv, hbv, hbvid, hbvt⟩ := hwf.vertexRootsTarget r hv
    have heq : bf = bv := mem_eq_of_map_nodup PBlock.id G.blocks hwf.nodupIds bf hbf bv hbv
      (by rw [hbfid, hbvid])
    rw [heq, hbvt] at hbft
    exact absurd hbft (by decide)
  exact foldl_dedup_append G.fragmentOutputNodes G.vertexOutputNodes
    hwf.fragmentRootsNodup hdisj

/-- addOutputNode on a block that already carries target Vertex appends
it to the vertex root list and changes nothing else. -/
theorem addOutputNodeP_vertexRoot (S : PGraph) (hnd : (S.blocks.map PBlock.id).Nodup)
    (r : Nat) (b : PBlock) (hb : b ∈ S.blocks) (hbid : b.id = r)
    (htgt : b.target = targetVertex) (hnot : r ∉ S.vertexOutputNodes) :
    addOutputNodeP S r = { S with vertexOutputNodes := S.vertexOutputNodes ++ [r] } := by
  have hfind : S.findBlock r = some b := by
    rw [← hbid]
    exact findById_self S.blocks hnd b hb
  have hmapid : (S.blocks.map fun b2 =>
      if b2.id = r then { b2 with target := targetVertex } else b2) = S.blocks := by
    refine map_id_of_mem _ S.blocks (fun b2 hb2 => ?_)
    by_cases h : b2.id = r
    · rw [if_pos h]
      have hb2b : b2 = b := mem_eq_of_map_nodup PBlock.id S.blocks hnd b2 hb2 b hb
        (by rw [h, hbid])
      rw [hb2b, ← htgt]
    · rw [if_neg h]
  have hc1 : b.target.land targetVertex ≠ 0 := by rw [htgt]; decide
  have hc2 : ¬b.target.land targetFragment ≠ 0 := by rw [htgt]; decide
  have hV : addVertexOutputNodeP S r =
      { S with vertexOutputNodes := S.vertexOutputNodes ++ [r] } := by
    unfold addVertexOutputNodeP
    rw [if_neg hnot, hmapid]
  unfold addOutputNodeP
  simp only [hfind]
  rw [if_pos hc1, hV]
  have hfind2 : ({ S with vertexOutputNodes := S.vertexOutputNodes ++ [r] } : PGraph).findBlock r =
      some b := hfind
  simp only [hfind2]
  rw [if_neg hc2]

/-- addOutputNode on a block that already carries target Fragment appends
it to the fragment root list and changes nothing else. -/
theorem addOutputNodeP_fragmentRoot (S : PGraph) (hnd : (S.blocks.map PBlock.id).Nodup)
    (r : Nat) (b : PBlock) (hb : b ∈ S.blocks) (hbid : b.id = r)
    (htgt : b.target = targetFragment) (hnot : r ∉ S.fragmentOutputNodes) :
    addOutputNodeP S r = { S with fragmentOutputNodes := S.fragmentOutputNodes ++ [r] } := by
  have hfind : S.findBlock r = some b := by
    rw [← hbid]
    exact findById_self S.blocks hnd b hb
  have hmapid : (S.blocks.map fun b2 =>
      if b2.id = r then { b2 with target := targetFragment } else b2) = S.blocks := by
    refine map_id_of_mem _ S.blocks (fun b2 hb2 => ?_)
    by_cases h : b2.id = r
    · rw [if_pos h]
      have hb2b : b2 = b := mem_eq_of_map_nodup PBlock.id S.blocks hnd b2 hb2 b hb
        (by rw [h, hbid])
      rw [hb2b, ← htgt]
    · rw [if_neg h]
  have hc1 : ¬b.target.land targetVertex ≠ 0 := by rw [htgt]; decide
  have hc2 : b.target.land targetFragment ≠ 0 := by rw [htgt]; decide
  have hF : addFragmentOutputNodeP S r =
      { S with fragmentOutputNodes := S.fragmentOutputNodes ++ [r] } := by
    unfold addFragmentOutputNodeP
    rw [if_neg hnot, hmapid]
  unfold addOutputNodeP
  simp only [hfind]
  rw [if_neg hc1]
  simp only [hfind]
  rw [if_pos hc2, hF]

/-- Re-declaring a nodup list of vertex roots whose blocks already carry
target Vertex appends them to the vertex root list in order. -/
theorem rootsFoldV (G : PGraph) (NB : List PBlock) (ed : List PEdge)
    (hmem : ∀ b, b ∈ NB ↔ b ∈ G.blocks) (hnd : (NB.map PBlock.id).Nodup) :
    ∀ l : List Nat, l.Nodup →
      (∀ r ∈ l, ∃ b ∈ G.blocks, b.id = r ∧ b.target = targetVertex) →
      ∀ acc fr : List Nat, (∀ r ∈ l, r ∉ acc) →
      List.foldl addOutputNodeP
        { blocks := NB, edges := ed, vertexOutputNodes := acc, fragmentOutputNodes := fr } l =
      { blocks := NB, edges := ed, vertexOutputNodes := acc ++ l, fragmentOutputNodes := fr } := by
  intro l
  induction l with
  | nil => intro _ _ acc fr _; simp
  | cons r rest ih =>
    intro hnd2 htg acc fr hacc
    obtain ⟨b, hbG, hbid, hbt⟩ := htg r (List.mem_cons_self r rest)
    have hacc2 : ∀ x ∈ rest, x ∉ acc ++ [r] := by
      intro x hx hmem2
      rcases List.mem_append.1 hmem2 with h | h
      · exact hacc x (List.mem_cons_of_mem r hx) h
      · exact (List.nodup_cons.1 hnd2).1 (List.mem_singleton.1 h ▸ hx)
    rw [List.foldl_cons,
      addOutputNodeP_vertexRoot
        { blocks := NB, edges := ed, vertexOutputNodes := acc, fragmentOutputNodes := fr }
        hnd r b ((hmem b).2 hbG) hbid hbt (hacc r (List.mem_cons_self r rest)),
      show acc ++ r :: rest = (acc ++ [r]) ++ rest from by simp]
    exact ih (List.nodup_cons.1 hnd2).2 (fun x hx => htg x (List.mem_cons_of_mem r hx))
      (acc ++ [r]) fr hacc2

/-- Re-declaring a nodup list of fragment roots whose blocks already carry
target Fragment appends them to the fragment root list in order. -/
theorem rootsFoldF (G : PGraph) (NB : List PBlock) (ed : List PEdge)
    (hmem : ∀ b, b ∈ NB ↔ b ∈ G.blocks) (hnd : (NB.map PBlock.id).Nodup) :
    ∀ l : List Nat, l.Nodup →
      (∀ r ∈ l, ∃ b ∈ G.blocks, b.id = r ∧ b.target = targetFragment) →
      ∀ vx fr : List Nat, (∀ r ∈ l, r ∉ fr) →
      List.foldl addOutputNodeP
        { blocks := NB, edges := ed, vertexOutputNodes := vx, fragmentOutputNodes := fr } l =
      { blocks := NB, edges := ed, vertexOutputNodes := vx, fragmentOutputNodes := fr ++ l } := by
  intro l
  induction l with
  | nil => intro _ _ vx fr _; simp
  | cons r rest ih =>
    intro hnd2 htg vx fr hacc
    obtain ⟨b, hbG, hbid, hbt⟩ := htg r (List.mem_cons_self r rest)
    have hacc2 : ∀ x ∈ rest, x ∉ fr ++ [r] := by
      intro x hx hmem2
      rcases List.mem_append.1 hmem2 with h | h
      · exact hacc x (List.mem_cons_of_mem r hx) h
      · exact (List.nodup_cons.1 hnd2).1 (List.mem_singleton.1 h ▸ hx)
    rw [List.foldl_cons,
      addOutputNodeP_fragmentRoot
        { blocks := NB, edges := ed, vertexOutputNodes := vx, fragmentOutputNodes := fr }
        hnd r b ((hmem b).2 hbG) hbid hbt (hacc r (List.mem_cons_self r rest)),
      show fr ++ r :: rest = (fr ++ [r]) ++ rest from by simp]
    exact ih (List.nodup_cons.1 hnd2).2 (fun x hx => htg x (List.mem_cons_of_mem r hx))
      vx (fr ++ [r]) hacc2

/-- The parse of a serialized wellformed graph, written out: the parsed
blocks, the restored connections, and the re-declared root lists. -/
theorem parseSerialized_eq (G : PGraph) (hwf : G.WF) (factory : Factory)
    (hfact : ∀ b ∈ G.blocks, factory b.customType = some (b.inputNames, b.outputNames))
    (sfuel fuel : Nat) :
    parseSerializedMaterial factory (serializeMaterial G sfuel) fuel =
      { blocks := parseBlocks factory (serializeMaterial G sfuel)
        edges := parseEdges (serializeMaterial G sfuel)
          (parseBlocks factory (serializeMaterial G sfuel)) fuel
        vertexOutputNodes := G.vertexOutputNodes
        fragmentOutputNodes := G.fragmentOutputNodes } := by
  have hmemNB : ∀ b, b ∈ parseBlocks factory (serializeMaterial G sfuel) ↔ b ∈ G.blocks :=
    fun b => parseBlocks_mem G hwf factory hfact sfuel b
  have hndNB := parseBlocks_ids_nodup G hwf factory sfuel
  show (serializeMaterial G sfuel).outputNodes.foldl addOutputNodeP
      { blocks := parseBlocks factory (serializeMaterial G sfuel)
        edges := parseEdges (serializeMaterial G sfuel)
          (parseBlocks factory (serializeMaterial G sfuel)) fuel
        vertexOutputNodes := [], fragmentOutputNodes := [] } = _
  have ho : (serializeMaterial G sfuel).outputNodes =
      G.vertexOutputNodes ++ G.fragmentOutputNodes := serializeOutputNodes_eq G hwf
  rw [ho, List.foldl_append,
    rootsFoldV G _ _ hmemNB hndNB G.vertexOutputNodes hwf.vertexRootsNodup
      hwf.vertexRootsTarget [] [] (fun r _ h => absurd h (List.not_mem_nil r)),
    rootsFoldF G _ _ hmemNB hndNB G.fragmentOutputNodes hwf.fragmentRootsNodup
      hwf.fragmentRootsTarget ([] ++ G.vertexOutputNodes) []
      (fun r _ h => absurd h (List.not_mem_nil r))]
  simp

/-- Claim C9, amended: serializing a wellformed material whose every
connection source is forward-restorable (reachable from a block with no
declared inputs through restored connections) and parsing the result with
a faithful block factory yields the same blocks, the same connections
(each restored exactly once), and the same vertex and fragment output
node lists; without the restorability hypothesis the leaf-started
_restoreConnections walk can drop connections, as the counterexample
shows. -/
theorem parseSerialized_roundTrip (G : PGraph) (hwf : G.WF) (factory : Factory)
    (hfact : ∀ b ∈ G.blocks, factory b.customType = some (b.inputNames, b.outputNames))
    (sfuel fuel : Nat) (hfuel : G.edges.length < fuel)
    (hproc : ∀ e ∈ G.edges, ProcReach G e.fromBlock) :
    (∀ b, b ∈ (parseSerializedMaterial factory (serializeMaterial G sfuel) fuel).blocks ↔
        b ∈ G.blocks) ∧
      (∀ e, e ∈ (parseSerializedMaterial factory (serializeMaterial G sfuel) fuel).edges ↔
        e ∈ G.edges) ∧
      (parseSerializedMaterial factory (serializeMaterial G sfuel) fuel).edges.Nodup ∧
      (parseSerializedMaterial factory (serializeMaterial G sfuel) fuel).vertexOutputNodes =
        G.vertexOutputNodes ∧
      (parseSerializedMaterial factory (serializeMaterial G sfuel) fuel).fragmentOutputNodes =
        G.fragmentOutputNodes := by
  rw [parseSerialized_eq G hwf factory hfact sfuel fuel]
  have hinv := parseEdges_inv G hwf factory hfact sfuel fuel hfuel
  refine ⟨fun b => parseBlocks_mem G hwf factory hfact sfuel b,
    fun e => ⟨fun he => hinv.1.1 e he,
      fun he => procReach_outDone G hwf factory hfact sfuel fuel hfuel e.fromBlock
        (hproc e he) e he rfl⟩,
    List.Nodup.of_map _ hinv.1.2, rfl, rfl⟩

/-- Witness for the amended claim C9 at the concrete restorable graph:
the round trip keeps the fragment root list and the connection from
block 3 into block 1. -/
theorem parseSerialized_roundTrip_witness :
    (parseSerializedMaterial factoryC9 (serializeMaterial gC9ok 3) 3).fragmentOutputNodes =
        gC9ok.fragmentOutputNodes ∧
      (({ toBlock := 1, inputName := "in", fromBlock := 3, outputName := "out" } : PEdge) ∈
          (parseSerializedMaterial factoryC9 (serializeMaterial gC9ok 3) 3).edges ↔
        ({ toBlock := 1, inputName := "in", fromBlock := 3, outputName := "out" } : PEdge) ∈
          gC9ok.edges) := by
  have h := parseSerialized_roundTrip gC9ok
    (by refine ⟨?_, ?_, ?_, ?_, ?_, ?_, ?_, ?_⟩ <;> decide)
    factoryC9 (by decide) 3 3 (by decide)
    (by
      intro e he
      have p3 : ProcReach gC9ok 3 := ProcReach.leaf { id := 3, customType := "TIn", target := targetNeutral, inputNames := [], outputNames := ["out"] } (by decide) rfl
      have p1 : ProcReach gC9ok 1 := ProcReach.step { toBlock := 1, inputName := "in", fromBlock := 3, outputName := "out" } (by decide) p3
      cases he with
      | head => exact p1
      | tail _ h2 =>
        cases h2 with
        | head => exact p3
        | tail _ h3 => cases h3)
  exact ⟨h.2.2.2.2, h.2.1 _⟩

end NodeMat
